import Mathlib

/-!
Verification development for an interactive spatial parameter-recovery agent
(an AtCoder AHC022 entry, `src/main.py`).

The Python program is shallowly embedded as follows.

* A temperature grid is a `List (List Int)` (Python list-of-lists of ints);
  cell reads out of range use the default `0`, which never occurs on the
  in-contract executions the theorems quantify over.
* Randomness is made explicit: every value the program draws from `random`
  (cell choices, perturbation offsets, Metropolis coins, Gaussian samples)
  is an input (a draw stream or a trace).  `random.randint(lo, hi)` is
  modelled by `randint`, which fails (like Python raises `ValueError`)
  exactly when `hi < lo` and otherwise maps an arbitrary natural draw onto
  the inclusive range `[lo, hi]`.
* The wall-clock / geometric-temperature loop structure of the annealing
  optimizer only determines how many proposals are made and with which
  acceptance probability; it is abstracted into an explicit `List AnnealMove`
  trace, one entry per proposal.  Whenever the Python loop is entered at all
  it performs at least one proposal with between 1 and 20 perturbations,
  which theorems about failing runs reflect as nonemptiness hypotheses.
* The interactive judge is a reply stream `m : Nat → Int` indexed by the
  query sequence number, together with a `MeasState` recording the number of
  consumed replies and a log of the issued queries.  A reply of `-1` makes
  the program exit (Python `sys.exit(1)`), modelled by `Option`.
* Fallible code returns `Option`; `none` is an uncaught Python exception or
  exit.
-/

/-- A temperature grid: Python's `List[List[int]]`. -/
abbrev Grid := List (List Int)

/-- Read `temperature[i][j]`; out-of-range reads default to `0` (they do not
occur on the grids the program builds). -/
def getCell (t : Grid) (i j : Nat) : Int :=
  (t.getD i []).getD j 0

/-- Write `temperature[i][j] = v`; out-of-range writes are dropped. -/
def setCell (t : Grid) (i j : Nat) (v : Int) : Grid :=
  t.set i ((t.getD i []).set j v)

/-- The all-zero `L`×`L` field `[[0] * L for _ in range(L)]`. -/
def zeros (L : Nat) : Grid :=
  List.replicate L (List.replicate L 0)

/-- Executable check that every stored cell value lies in `[0, 1000]`. -/
def inRange1000 (t : Grid) : Bool :=
  t.all (fun row => row.all (fun v => decide (0 ≤ v) && decide (v ≤ 1000)))

/-- Smoothness cost `OptimizeTemperature._calc_placement_cost`: for every cell,
the squared difference with the toroidal right neighbour plus the squared
difference with the toroidal down neighbour. -/
def calcPlacementCost (L : Nat) (temperature : Grid) : Int :=
  ∑ i ∈ Finset.range L, ∑ j ∈ Finset.range L,
    ((getCell temperature i j - getCell temperature ((i + 1) % L) j) ^ 2 +
      (getCell temperature i j - getCell temperature i ((j + 1) % L)) ^ 2)

/-- One annealing proposal of `OptimizeTemperature.optimize`: the cell-choice
and offset draws for each of the 1–20 perturbations, and the outcome of the
Metropolis coin `random.uniform(0,1) < exp(-delta/T)` (which is only consulted
when the proposal does not improve the cost; `exp` is positive, so both
outcomes are realisable whenever the coin is consulted). -/
structure AnnealMove where
  perturbs : List (Nat × Nat)
  accept : Bool

/-- Python `random.randint(lo, hi)`: raises (`none`) iff `hi < lo`, otherwise
an arbitrary draw is mapped onto the inclusive range `[lo, hi]`. -/
def randint (lo hi : Int) (draw : Nat) : Option Int :=
  if hi < lo then none
  else some (lo + ((draw % (hi - lo + 1).toNat : Nat) : Int))

/-- The eligible-cell list
`[(i, j) for i in range(L) for j in range(L) if (i, j) not in prohibit_pos]`. -/
def permitPos (L : Nat) (prohibit_pos : List (Nat × Nat)) : List (Nat × Nat) :=
  (List.range L).flatMap (fun i =>
    ((List.range L).filter (fun j => decide ((i, j) ∉ prohibit_pos))).map (fun j => (i, j)))

/-- One perturbation of the proposal loop: pick `random.choice(permit_pos)`,
add `random.randint(-rand, rand)` to the cell and clamp with
`max(0, min(1000, ·))`. -/
def applyPerturb (rand : Int) (permit_pos : List (Nat × Nat)) (t : Grid)
    (draw : Nat × Nat) : Option Grid :=
  (randint (-rand) rand draw.2).map (fun d =>
    let c := permit_pos.getD (draw.1 % permit_pos.length) (0, 0)
    setCell t c.1 c.2 (max 0 (min 1000 (getCell t c.1 c.2 + d))))

/-- The `for _ in range(random.randint(1, 20))` perturbation loop. -/
def applyPerturbs (rand : Int) (permit_pos : List (Nat × Nat)) :
    Grid → List (Nat × Nat) → Option Grid
  | t, [] => some t
  | t, p :: ps =>
    match applyPerturb rand permit_pos t p with
    | none => none
    | some t2 => applyPerturbs rand permit_pos t2 ps

/-- One proposal/acceptance step of `OptimizeTemperature.optimize`: perturb a
copy of the retained field, recompute the cost, and accept when `delta < 0` or
the Metropolis coin fires.  Note the Python code stores the accepted field in
`best_temperature` itself. -/
def annealStep (L : Nat) (rand : Int) (permit_pos : List (Nat × Nat))
    (st : Grid × Int) (mv : AnnealMove) : Option (Grid × Int) :=
  match applyPerturbs rand permit_pos st.1 mv.perturbs with
  | none => none
  | some newT =>
    let neighbour_cost := calcPlacementCost L newT
    some (if neighbour_cost - st.2 < 0 ∨ mv.accept = true then (newT, neighbour_cost) else st)

/-- The proposal loop of `OptimizeTemperature.optimize`, one `AnnealMove` per
executed proposal. -/
def annealRun (L : Nat) (rand : Int) (permit_pos : List (Nat × Nat)) :
    Grid × Int → List AnnealMove → Option (Grid × Int)
  | st, [] => some st
  | st, mv :: tr =>
    match annealStep L rand permit_pos st mv with
    | none => none
    | some st2 => annealRun L rand permit_pos st2 tr

/-- `OptimizeTemperature.optimize`: returns the retained field, or the input
unchanged when no cell is eligible; `none` models an uncaught exception. -/
def optimize (L : Nat) (current_temperature : Grid) (prohibit_pos : List (Nat × Nat))
    (rand : Int) (trace : List AnnealMove) : Option Grid :=
  let best_temperature := current_temperature
  let best_cost := calcPlacementCost L current_temperature
  let permit_pos := permitPos L prohibit_pos
  if permit_pos.length = 0 then some best_temperature
  else (annealRun L rand permit_pos (best_temperature, best_cost) trace).map Prod.fst

/-- A candidate-site coordinate (Python `Pos`); episode coordinates are
non-negative, so the fields are naturals. -/
structure Pos where
  y : Nat
  x : Nat
deriving DecidableEq

/-- The perturbation magnitude chosen by `OnePointTemperature.run`:
`self.N // 20 - 2`. -/
def onePointRand (N : Nat) : Int :=
  ((N / 20 : Nat) : Int) - 2

/-- The square of offsets `[(y, x) for y in range(-r, r+1) for x in range(-r, r+1)]`. -/
def squareOffsets (r : Nat) : List (Int × Int) :=
  (List.range (2 * r + 1)).flatMap (fun a =>
    (List.range (2 * r + 1)).map (fun b => ((a : Int) - r, (b : Int) - r)))

/-- `OnePointTemperature.around`: the 3×3 ring without the centre. -/
def around1 : List (Int × Int) :=
  (squareOffsets 1).filter (fun p => decide (¬p = (0, 0)))

/-- `OnePointTemperature.around2`: the 5×5 square minus `around` and the centre. -/
def around2 : List (Int × Int) :=
  (squareOffsets 2).filter (fun p => decide (p ∉ around1 ∧ ¬p = (0, 0)))

/-- `OnePointTemperature.around3`: the 7×7 square minus the inner rings and the
centre. -/
def around3 : List (Int × Int) :=
  (squareOffsets 3).filter (fun p => decide (p ∉ (around1 ++ around2) ∧ ¬p = (0, 0)))

/-- Python toroidal index `(a + d) % L` (non-negative for `L ≥ 1`). -/
def wrapIdx (L : Nat) (a : Nat) (d : Int) : Nat :=
  (((a : Int) + d) % (L : Int)).toNat

/-- Manhattan distance of a site to the grid centre `(L // 2, L // 2)`. -/
def centerDist (L : Nat) (p : Pos) : Nat :=
  ((p.y : Int) - ((L / 2 : Nat) : Int)).natAbs + ((p.x : Int) - ((L / 2 : Nat) : Int)).natAbs

/-- Comparison used to sort sites by distance to the centre (the Python sort of
singleton `{pos: distance}` dicts by value; `insertionSort` with `≤` is stable
like Python's sort). -/
def centerLe (L : Nat) (p q : Pos) : Prop :=
  centerDist L p ≤ centerDist L q

instance (L : Nat) : DecidableRel (centerLe L) :=
  fun p q => inferInstanceAs (Decidable (centerDist L p ≤ centerDist L q))

instance (L : Nat) : IsTotal Pos (centerLe L) :=
  ⟨fun p q => Nat.le_total (centerDist L p) (centerDist L q)⟩

instance (L : Nat) : IsTrans Pos (centerLe L) :=
  ⟨fun _ _ _ h1 h2 => Nat.le_trans h1 h2⟩

/-- One ring pass of `OnePointTemperature.run`: write `aval` into empty cells
and average it into already-written non-site cells. -/
def ringWrite (L : Nat) (prohibit_pos : List (Nat × Nat)) (aval : Int) (pos : Pos)
    (offs : List (Int × Int)) (t : Grid) : Grid :=
  offs.foldl (fun t d =>
    let y := wrapIdx L pos.y d.1
    let x := wrapIdx L pos.x d.2
    if getCell t y x = 0 then setCell t y x aval
    else if getCell t y x ≠ 0 ∧ (y, x) ∉ prohibit_pos then
      setCell t y x ((getCell t y x + aval) / 2)
    else t) t

/-- The final fill of both designers: replace every remaining zero cell by the
running average. -/
def fillZeros (L : Nat) (avg : Int) (t : Grid) : Grid :=
  (List.range L).foldl (fun t i =>
    (List.range L).foldl (fun t j =>
      if getCell t i j = 0 then setCell t i j avg else t) t) t

/-- The ranked running-average target of `OnePointTemperature.run`:
`(interval + N * interval) * N // 2 // N` with `interval = 2`. -/
def onePointAvg (N : Nat) : Nat :=
  (2 + N * 2) * N / 2 / N

/-- The field built by `OnePointTemperature.run` before annealing (Variant A):
sites sorted by distance to the centre get level `interval * (i + 1)`, three
rings blend towards the population average, and remaining zeros are filled
with the average. -/
def onePointBuild (L N : Nat) (landing_pos : List Pos) : Grid :=
  let interval : Nat := 2
  let avg := onePointAvg N
  let prohibit_pos := landing_pos.map (fun p => (p.y, p.x))
  let sortedByCenter := List.insertionSort (centerLe L) landing_pos
  let t := (List.range N).foldl (fun t i =>
    let pos := sortedByCenter.getD i ⟨0, 0⟩
    let t := setCell t pos.y pos.x ((interval : Int) * ((i : Int) + 1))
    let center_avg : Int := 2 * ((i : Int) + 1)
    let avg_round1 := (3 * center_avg + (avg : Int)) / 4
    let avg_round2 := (center_avg + (avg : Int)) / 2
    let avg_round3 := (center_avg + 3 * (avg : Int)) / 4
    let t := ringWrite L prohibit_pos avg_round1 pos around1 t
    let t := ringWrite L prohibit_pos avg_round2 pos around2 t
    ringWrite L prohibit_pos avg_round3 pos around3 t) (zeros L)
  fillZeros L (avg : Int) t

/-- `OnePointTemperature.run` (Variant A): build the ranked field, then anneal
with perturbation magnitude `N // 20 - 2` away from the site cells. -/
def onePointTemperatureRun (L N : Nat) (landing_pos : List Pos)
    (trace : List AnnealMove) : Option Grid :=
  optimize L (onePointBuild L N landing_pos) (landing_pos.map (fun p => (p.y, p.x)))
    (onePointRand N) trace

/-- An entry of `SingularTemperature.run`'s distance list:
`[i_out, [dy, dx], [|dy| + |dx|]]`. -/
abbrev SEntry := Nat × (Int × Int) × Nat

/-- Comparison used by `distance.sort(key=lambda x: x[2])`. -/
def distLe (a b : SEntry) : Prop :=
  a.2.2 ≤ b.2.2

instance : DecidableRel distLe :=
  fun a b => inferInstanceAs (Decidable (a.2.2 ≤ b.2.2))

instance : IsTotal SEntry distLe :=
  ⟨fun a b => Nat.le_total a.2.2 b.2.2⟩

instance : IsTrans SEntry distLe :=
  ⟨fun _ _ _ h1 h2 => Nat.le_trans h1 h2⟩

/-- `SingularTemperature.run` (Variant B): one hotspot `min(1000, 10 * S)` at
the centroid of the sites; the per-site offsets to the hotspot, sorted by
Manhattan distance. -/
def singularTemperatureRun (L N S : Nat) (landing_pos : List Pos) :
    Grid × List SEntry :=
  let y := (landing_pos.map Pos.y).sum / N
  let x := (landing_pos.map Pos.x).sum / N
  let temperature := setCell (zeros L) y x (min 1000 (10 * (S : Int)))
  let distance := landing_pos.enum.map (fun ip =>
    (ip.1, ((y : Int) - ip.2.y, (x : Int) - ip.2.x),
      ((y : Int) - ip.2.y).natAbs + ((x : Int) - ip.2.x).natAbs))
  (temperature, List.insertionSort distLe distance)

/-- An entry of `SingularTemperature2.run`'s distance list:
`[[dy, dx], [dy2, dx2]]`, the offsets to the two hotspots. -/
abbrev S2Entry := (Int × Int) × (Int × Int)

/-- `SingularTemperature2.run` (Variant C): two vertically adjacent hotspots at
the site centroid; the per-site offset pairs in `landing_pos` order, unsorted. -/
def singularTemperature2Run (L N S : Nat) (landing_pos : List Pos) :
    Grid × List S2Entry :=
  let y := (landing_pos.map Pos.y).sum / N
  let x := (landing_pos.map Pos.x).sum / N
  let t := setCell (zeros L) y x (min 1000 (10 * (S : Int)))
  let t := setCell t ((y + 1) % L) x (min 1000 (10 * (S : Int)))
  let distance := landing_pos.map (fun pos =>
    (((y : Int) - pos.y, (x : Int) - pos.x),
      ((((y + 1) % L : Nat) : Int) - pos.y, (x : Int) - pos.x)))
  (t, distance)

/-- The neighbourhood radius selector shared by `AroundTemperature.__init__`
and `AroundSolver.__init__` (3×3 vs 5×5). -/
def aroundSize (S N : Nat) : Nat :=
  if S < 625 then (if 289 ≤ S ∧ N = 100 then 5 else 3) else 5

/-- The neighbourhood offset list matching `aroundSize`. -/
def aroundDirection (S N : Nat) : List (Int × Int) :=
  if S < 625 then (if 289 ≤ S ∧ N = 100 then squareOffsets 2 else squareOffsets 1)
  else squareOffsets 2

/-- Loop state of `AroundTemperature.run`: the landing deque, the field, the
accumulated prohibited cells, the running average numerator and count, and the
position in the Gaussian draw stream. -/
structure AroundState where
  dq : List Pos
  temperature : Grid
  prohibit : List (Nat × Nat)
  avgSum : Int
  num : Nat
  gi : Nat

/-- One iteration of `AroundTemperature.run`'s site loop: pop a site from the
deque (front for even `i`, back for odd), write the sorted centre level, and
seed the empty neighbourhood cells with clamped Gaussian draws.  Both σ
branches (`S * 0.9` vs `S`, chosen by `S * N <= 26460`) draw one Gaussian and
clamp with `min(1000, max(0, int(·)))`; the σ only shapes the distribution and
is absorbed into the arbitrary draw stream `g`. -/
def aroundLoopBody (L : Nat) (direction : List (Int × Int)) (g : Nat → Int)
    (centerTemps : List Int) (st : AroundState) (i : Nat) : AroundState :=
  let pos := if i % 2 = 0 then st.dq.headD ⟨0, 0⟩ else st.dq.getLastD ⟨0, 0⟩
  let dq := if i % 2 = 0 then st.dq.tail else st.dq.dropLast
  let center_temp := centerTemps.getD i 0
  let t0 := setCell st.temperature pos.y pos.x center_temp
  let st0 : AroundState :=
    ⟨dq, t0, st.prohibit, st.avgSum + getCell t0 pos.y pos.x, st.num + 1, st.gi⟩
  direction.foldl (fun a d =>
    let yy := wrapIdx L pos.y d.1
    let xx := wrapIdx L pos.x d.2
    let pro := a.prohibit ++ [(yy, xx)]
    if getCell a.temperature yy xx = 0 then
      let t1 := setCell a.temperature yy xx (min 1000 (max 0 (g a.gi)))
      ⟨a.dq, t1, pro, a.avgSum + getCell t1 yy xx, a.num + 1, a.gi + 1⟩
    else ⟨a.dq, a.temperature, pro, a.avgSum, a.num, a.gi⟩) st0

/-- The sorted clamped Gaussian centre levels of `AroundTemperature.run`. -/
def aroundCenterTemps (N : Nat) (g : Nat → Int) : List Int :=
  List.insertionSort (fun a b : Int => a ≤ b)
    ((List.range N).map (fun k => min 1000 (max 0 (g k))))

/-- The site loop of `AroundTemperature.run`, started from the landing deque,
the zero field, the site cells as initial prohibited cells, and the Gaussian
stream positioned after the `N` centre draws. -/
def aroundFold (L N S : Nat) (landing_pos : List Pos) (g : Nat → Int) : AroundState :=
  (List.range N).foldl
    (aroundLoopBody L (aroundDirection S N) g (aroundCenterTemps N g))
    ⟨landing_pos, zeros L, landing_pos.map (fun p => (p.y, p.x)), 0, 0, N⟩

/-- `AroundTemperature.run` (Variant D): clamped Gaussian centre levels sorted
ascending and dealt to the sites by alternating pops, Gaussian-seeded
neighbourhoods, average fill, annealing with magnitude 3 away from all touched
cells, and the per-site neighbourhood template vectors.  The draw stream `g`
supplies `int(random.gauss(...))` values: indices `0..N-1` are the centre
levels, later indices the neighbourhood seeds. -/
def aroundTemperatureRun (L N S : Nat) (landing_pos : List Pos) (g : Nat → Int)
    (trace : List AnnealMove) : Option (Grid × List (List Int)) :=
  let fin := aroundFold L N S landing_pos g
  let avg := fin.avgSum / (fin.num : Int)
  let t := fillZeros L avg fin.temperature
  let prohibit_pos := fin.prohibit.eraseDups
  (optimize L t prohibit_pos 3 trace).map (fun tOpt =>
    (tOpt, landing_pos.map (fun pos =>
      (aroundDirection S N).map (fun d =>
        getCell tOpt (wrapIdx L pos.y d.1) (wrapIdx L pos.x d.2)))))

/-- The measurement-channel state: the number of consumed replies and the log
of issued queries `(hidden index, dy, dx)`. -/
structure MeasState where
  cnt : Nat
  log : List (Nat × Int × Int)
deriving DecidableEq

/-- `Judge.measure`: issue a query, read the next reply from the stream `m`;
a reply of `-1` terminates the program (`sys.exit(1)`). -/
def judgeMeasure (m : Nat → Int) (i : Nat) (y x : Int) (st : MeasState) :
    Option (Int × MeasState) :=
  let v := m st.cnt
  if v = -1 then none
  else some (v, ⟨st.cnt + 1, st.log ++ [(i, y, x)]⟩)

/-- `sum([self.judge.measure(i, y, x) for _ in range(k)])`. -/
def measureSum (m : Nat → Int) (i : Nat) (y x : Int) :
    Nat → MeasState → Option (Int × MeasState)
  | 0, st => some (0, st)
  | k + 1, st =>
    match judgeMeasure m i y x st with
    | none => none
    | some (v, st1) =>
      match measureSum m i y x k st1 with
      | none => none
      | some (s, st2) => some (v + s, st2)

/-- All ways to insert an element into a list. -/
def insertEverywhere {α : Type} (a : α) : List α → List (List α)
  | [] => [[a]]
  | b :: bs => (a :: b :: bs) :: (insertEverywhere a bs).map (fun l => b :: l)

/-- All permutations of a list (structurally recursive, kernel-reducible). -/
def allPerms {α : Type} : List α → List (List α)
  | [] => [[]]
  | a :: as => (allPerms as).flatMap (insertEverywhere a)

/-- Total cost of an assignment `perm` (row `i` is matched to column
`perm[i]`) under an `N`×`N` score matrix given as a function. -/
def totalCost (N : Nat) (cost : Nat → Nat → ℚ) (perm : List Nat) : ℚ :=
  ∑ i ∈ Finset.range N, cost i (perm.getD i 0)

/-- Modelled from the spec: `scipy.optimize.linear_sum_assignment`, called by
`BaseSolver._hungarian_method`, is external library code — "Solve exact
minimum/maximum-cost bipartite matching, guaranteeing a globally optimal
bijection."  The model selects a total-cost minimising (or, with `maximize`,
maximising) permutation of `0..N-1` by scanning all permutations. -/
def hungarianMethod (N : Nat) (cost : Nat → Nat → ℚ) (maximize : Bool) : List Nat :=
  match allPerms (List.range N) with
  | [] => []
  | p :: ps =>
    ps.foldl (fun best q =>
      if (if maximize then totalCost N cost best < totalCost N cost q
          else totalCost N cost q < totalCost N cost best) then q else best) p

/-- Read entry `(i, j)` of a rational score matrix (`cost_matrix[i][j]`). -/
def matrixCost (M : List (List ℚ)) : Nat → Nat → ℚ :=
  fun i j => (M.getD i []).getD j 0

/-- Read entry `(i, j)` of an integer score matrix as a rational. -/
def matrixCostInt (M : List (List Int)) : Nat → Nat → ℚ :=
  fun i j => (((M.getD i []).getD j 0 : Int) : ℚ)

/-- Total cost of an assignment restricted to the measured rows `0..N-2`. -/
def partialCost (N : Nat) (cost : Nat → Nat → ℚ) (p : List Nat) : ℚ :=
  ∑ i ∈ Finset.range (N - 1), cost i (p.getD i 0)

/-- Concrete 72-site episode used to exhibit the probing order of the Variant C
threshold decoder: site `i` sits at `(i % 10, i / 10)` on a 10×10 grid. -/
def c4Landing : List Pos :=
  (List.range 72).map (fun i => ⟨i % 10, i / 10⟩)

/-- The distance list `SingularTemperature2.run` hands to the Variant C decoder
for `c4Landing` (`S = 169`). -/
def c4Dist : List S2Entry :=
  (singularTemperature2Run 10 72 169 c4Landing).2

/-- The summed Manhattan norm of a Variant C offset pair: the candidate's
distance to the two hotspots. -/
def pairDist (e : S2Entry) : Nat :=
  e.1.1.natAbs + e.1.2.natAbs + e.2.1.natAbs + e.2.2.natAbs

/-- The row update of `OnePointSolver._predict`:
`cost_matrix[i_in][i_out] = abs(temperature[pos.y][pos.x] - measured_value)`
for each site. -/
def onePointRow (temperature : Grid) (landing_pos : List Pos)
    (measured_value : ℚ) (row : List ℚ) : List ℚ :=
  landing_pos.enum.foldl (fun r ip =>
    r.set ip.1 |((getCell temperature ip.2.y ip.2.x : Int) : ℚ) - measured_value|) row

/-- The measurement/matrix phase of `OnePointSolver._predict`: for each hidden
index `0..N-2`, average 5 readings at offset `(0,0)` and fill the row.  The
Python float average `sum(...) / measure_count` is modelled as an exact
rational. -/
def onePointPredictAux (N : Nat) (temperature : Grid) (landing_pos : List Pos)
    (m : Nat → Int) : Option (List (List ℚ) × MeasState) :=
  (List.range (N - 1)).foldl (fun acc i_in =>
    match acc with
    | none => none
    | some (M, st) =>
      match measureSum m i_in 0 0 5 st with
      | none => none
      | some (s, st1) =>
        let measured_value : ℚ := (s : ℚ) / 5
        some (M.set i_in (onePointRow temperature landing_pos measured_value (M.getD i_in [])),
          st1))
    (some (List.replicate N (List.replicate N (0 : ℚ)), ⟨0, []⟩))

/-- `OnePointSolver._predict` (Variant A decoder): minimum-cost assignment on
the measured score matrix. -/
def onePointPredict (N : Nat) (temperature : Grid) (landing_pos : List Pos)
    (m : Nat → Int) : Option (List Nat × MeasState) :=
  (onePointPredictAux N temperature landing_pos m).map (fun Mst =>
    (hungarianMethod N (matrixCost Mst.1) false, Mst.2))

/-- The candidate scan of one round of `SingularSolver._predict`: walk the
(sorted) distance list, skip already-claimed candidates, and claim the first
whose reading exceeds `min(999, 5 * S)`. -/
def singularPredictRound (S : Nat) (m : Nat → Int) (i_in : Nat) :
    List SEntry → List Nat → MeasState → Option (Option Nat × MeasState)
  | [], _, st => some (none, st)
  | e :: rest, visited, st =>
    if e.1 ∈ visited then singularPredictRound S m i_in rest visited st
    else
      match judgeMeasure m i_in e.2.1.1 e.2.1.2 st with
      | none => none
      | some (v, st1) =>
        if v > min 999 (5 * (S : Int)) then some (some e.1, st1)
        else singularPredictRound S m i_in rest visited st1

/-- The outer loop of `SingularSolver._predict` over hidden indices `0..N-2`,
threading the estimate list, the claimed-candidate list, and the channel. -/
def singularRounds (S : Nat) (dist : List SEntry) (m : Nat → Int) :
    List Nat → List Nat × List Nat × MeasState →
      Option (List Nat × List Nat × MeasState)
  | [], s => some s
  | i :: is, (est, visited, st) =>
    match singularPredictRound S m i dist visited st with
    | none => none
    | some (none, st1) => singularRounds S dist m is (est, visited, st1)
    | some (some i_out, st1) =>
      singularRounds S dist m is (est.set i i_out, visited ++ [i_out], st1)

/-- `SingularSolver._predict` (Variant B decoder): greedy threshold rounds for
`0..N-2`, then force-assign the first unclaimed candidate to index `N-1`. -/
def singularPredict (N S : Nat) (dist : List SEntry) (m : Nat → Int) :
    Option (List Nat × MeasState) :=
  (singularRounds S dist m (List.range (N - 1))
      (List.replicate N 0, [], ⟨0, []⟩)).map (fun r =>
    (r.1.set (N - 1) (((List.range N).filter (fun i => decide (i ∉ r.2.1))).headD 0),
      r.2.2))

/-- One row of `SingularSolver2._predict`'s matrix branch:
`cost_matrix[i_in][i_out] += measure(i_in, dy, dx) + measure(i_in, dy2, dx2)`
over the enumerated distance list. -/
def ss2ScoreRow (m : Nat → Int) (i_in : Nat) :
    List (Nat × S2Entry) → List Int → MeasState → Option (List Int × MeasState)
  | [], row, st => some (row, st)
  | e :: rest, row, st =>
    match judgeMeasure m i_in e.2.1.1 e.2.1.2 st with
    | none => none
    | some (v1, st1) =>
      match judgeMeasure m i_in e.2.2.1 e.2.2.2 st1 with
      | none => none
      | some (v2, st2) =>
        ss2ScoreRow m i_in rest (row.set e.1 (row.getD e.1 0 + v1 + v2)) st2

/-- The matrix phase of `SingularSolver2._predict` for `N ≤ 71`: rows
`0..N-2` are filled with summed paired readings, row `N-1` stays zero. -/
def ss2BuildMatrix (N : Nat) (dist : List S2Entry) (m : Nat → Int) :
    Option (List (List Int) × MeasState) :=
  (List.range (N - 1)).foldl (fun acc i_in =>
    match acc with
    | none => none
    | some (M, st) =>
      match ss2ScoreRow m i_in dist.enum (M.getD i_in []) st with
      | none => none
      | some (row, st1) => some (M.set i_in row, st1))
    (some (List.replicate N (List.replicate N (0 : Int)), ⟨0, []⟩))

/-- The candidate scan of one round of `SingularSolver2._predict`'s threshold
branch: walk the enumerated (unsorted) distance list, skip claimed candidates,
and claim the first whose summed paired reading exceeds `5.3 * S`.  The float
threshold comparison `v1 + v2 > 5.3 * S` is modelled exactly as the rational
inequality `10 * (v1 + v2) > 53 * S`. -/
def ss2ProbeRound (S : Nat) (m : Nat → Int) (i_in : Nat) :
    List (Nat × S2Entry) → List Nat → MeasState → Option (Option Nat × MeasState)
  | [], _, st => some (none, st)
  | e :: rest, visited, st =>
    if e.1 ∈ visited then ss2ProbeRound S m i_in rest visited st
    else
      match judgeMeasure m i_in e.2.1.1 e.2.1.2 st with
      | none => none
      | some (v1, st1) =>
        match judgeMeasure m i_in e.2.2.1 e.2.2.2 st1 with
        | none => none
        | some (v2, st2) =>
          if 10 * (v1 + v2) > 53 * (S : Int) then some (some e.1, st2)
          else ss2ProbeRound S m i_in rest visited st2

/-- The outer loop of `SingularSolver2._predict`'s threshold branch. -/
def ss2Rounds (S : Nat) (dist : List S2Entry) (m : Nat → Int) :
    List Nat → List Nat × List Nat × MeasState →
      Option (List Nat × List Nat × MeasState)
  | [], s => some s
  | i :: is, (est, visited, st) =>
    match ss2ProbeRound S m i dist.enum visited st with
    | none => none
    | some (none, st1) => ss2Rounds S dist m is (est, visited, st1)
    | some (some i_out, st1) =>
      ss2Rounds S dist m is (est.set i i_out, visited ++ [i_out], st1)

/-- `SingularSolver2._predict` (Variant C decoder): maximum-cost assignment on
the paired-reading matrix when `N ≤ 71`, otherwise greedy threshold rounds
with a forced final assignment. -/
def singularSolver2Predict (N S : Nat) (dist : List S2Entry) (m : Nat → Int) :
    Option (List Nat × MeasState) :=
  if N ≤ 71 then
    (ss2BuildMatrix N dist m).map (fun Mst =>
      (hungarianMethod N (matrixCostInt Mst.1) true, Mst.2))
  else
    (ss2Rounds S dist m (List.range (N - 1))
        (List.replicate N 0, [], ⟨0, []⟩)).map (fun r =>
      (r.1.set (N - 1) (((List.range N).filter (fun i => decide (i ∉ r.2.1))).headD 0),
        r.2.2))

/-- The per-offset averaged measurement vector of `AroundSolver._predict`; the
float average is modelled as an exact rational. -/
def aroundMeasureVector (m : Nat → Int) (i_in : Nat) (measure_count : Nat) :
    List (Int × Int) → List ℚ → MeasState → Option (List ℚ × MeasState)
  | [], acc, st => some (acc, st)
  | d :: rest, acc, st =>
    match measureSum m i_in d.1 d.2 measure_count st with
    | none => none
    | some (s, st1) =>
      aroundMeasureVector m i_in measure_count rest
        (acc ++ [(s : ℚ) / (measure_count : ℚ)]) st1

/-- The row update of `AroundSolver._predict`: the summed squared deviation of
the measured vector from each site's template vector. -/
def aroundCostRow (vector : List (List Int)) (landing_pos : List Pos)
    (measure_vector : List ℚ) (row : List ℚ) : List ℚ :=
  landing_pos.enum.foldl (fun r ip =>
    r.set ip.1 (∑ k ∈ Finset.range measure_vector.length,
      (((vector.getD ip.1 []).getD k 0 : Int) - measure_vector.getD k 0) ^ 2)) row

/-- The measurement/matrix phase of `AroundSolver._predict`: every hidden
index `0..N-1` is measured `measure_count` times per neighbourhood offset. -/
def aroundPredictAux (N measure_count : Nat) (direction : List (Int × Int))
    (landing_pos : List Pos) (vector : List (List Int)) (m : Nat → Int) :
    Option (List (List ℚ) × MeasState) :=
  (List.range N).foldl (fun acc i_in =>
    match acc with
    | none => none
    | some (M, st) =>
      match aroundMeasureVector m i_in measure_count direction [] st with
      | none => none
      | some (mv, st1) =>
        some (M.set i_in (aroundCostRow vector landing_pos mv (M.getD i_in [])), st1))
    (some (List.replicate N (List.replicate N (0 : ℚ)), ⟨0, []⟩))

/-- The per-measurement repeat count of `AroundSolver._predict`:
`10000 // N // Around ** 2`. -/
def aroundMeasureCount (N around : Nat) : Nat :=
  10000 / N / around ^ 2

/-- `AroundSolver._predict` (Variant D decoder): minimum-cost assignment on
the template-deviation matrix. -/
def aroundPredict (N around : Nat) (direction : List (Int × Int))
    (landing_pos : List Pos) (vector : List (List Int)) (m : Nat → Int) :
    Option (List Nat × MeasState) :=
  (aroundPredictAux N (aroundMeasureCount N around) direction landing_pos vector m).map
    (fun Mst => (hungarianMethod N (matrixCost Mst.1) false, Mst.2))

/-- The four solver variants of `main`'s dispatch. -/
inductive SolverKind
  | onePoint
  | singular
  | singular2
  | around
deriving DecidableEq

/-- The two decoder families of the spec. -/
inductive DecoderKind
  | optimalAssignment
  | greedyThreshold
deriving DecidableEq

/-- The strategy selector of `main`: the `if/elif` chain on `(S, N)`. -/
def selectSolver (S N : Nat) : SolverKind :=
  if S = 1 then .onePoint
  else if 1 < S ∧ S < 169 then .singular
  else if 169 ≤ S ∧ S < 289 then .singular2
  else if 289 ≤ S ∧ S < 400 ∧ N ≤ 71 then .singular2
  else .around

/-- Which decoder family each selected solver's `_predict` uses (from the
source: OnePointSolver and AroundSolver call `_hungarian_method`,
SingularSolver runs threshold rounds, SingularSolver2 branches on `N ≤ 71`). -/
def decoderOf : SolverKind → Nat → DecoderKind
  | .onePoint, _ => .optimalAssignment
  | .singular, _ => .greedyThreshold
  | .singular2, N => if N ≤ 71 then .optimalAssignment else .greedyThreshold
  | .around, _ => .optimalAssignment

/-- Stated from the spec's words, for comparison with `selectSolver`: "S==1 →
Variant A; 1<S<169 → Variant B; 169≤S<289, or (289≤S<400 and N≤71) → Variant
C; otherwise → Variant D". -/
def selectSolverSpec (S N : Nat) : SolverKind :=
  if S = 1 then .onePoint
  else if 1 < S ∧ S < 169 then .singular
  else if (169 ≤ S ∧ S < 289) ∨ (289 ≤ S ∧ S < 400 ∧ N ≤ 71) then .singular2
  else .around

/-- Stated from the spec's words, for comparison with `aroundSize`: the
neighbourhood is 5×5 when `S ≥ 625` or (`S ≥ 289` and `N = 100`), else 3×3. -/
def aroundSizeSpec (S N : Nat) : Nat :=
  if 625 ≤ S ∨ (289 ≤ S ∧ N = 100) then 5 else 3

/-- The invariant carried through the site loop of `AroundTemperature.run`. -/
def AroundInv (st : AroundState) : Prop :=
  inRange1000 st.temperature = true ∧ 0 ≤ st.avgSum ∧ st.avgSum ≤ 1000 * st.num

lemma sq_add_sq_eq_zero {a b : Int} (h : a ^ 2 + b ^ 2 = 0) : a = 0 ∧ b = 0 := by
  constructor <;> nlinarith [sq_nonneg a, sq_nonneg b]

lemma cycle_constant (L : Nat) (f : Nat → Int)
    (h : ∀ i, i < L → f i = f ((i + 1) % L)) : ∀ i, i < L → f i = f 0 := by
  intro i
  induction i with
  | zero => intro; rfl
  | succ k ih =>
    intro hk
    have hkL : k < L := Nat.lt_of_succ_lt hk
    have hs := h k hkL
    rw [Nat.mod_eq_of_lt hk] at hs
    rw [← hs]
    exact ih hkL

/-- Claim C5: the smoothness cost is the stated toroidal sum, it is a
non-negative integer, and it vanishes exactly on constant fields. -/
theorem claim_c5_smoothness_cost (L : Nat) (t : Grid) :
    0 ≤ calcPlacementCost L t ∧
      (calcPlacementCost L t = 0 ↔
        ∀ i ∈ Finset.range L, ∀ j ∈ Finset.range L, getCell t i j = getCell t 0 0) := by
  have hterm : ∀ i ∈ Finset.range L, ∀ j ∈ Finset.range L,
      (0 : Int) ≤ (getCell t i j - getCell t ((i + 1) % L) j) ^ 2 +
        (getCell t i j - getCell t i ((j + 1) % L)) ^ 2 := by
    intro i _ j _
    positivity
  constructor
  · exact Finset.sum_nonneg fun i hi => Finset.sum_nonneg fun j hj => hterm i hi j hj
  · constructor
    · intro h0
      have hall : ∀ i ∈ Finset.range L, ∀ j ∈ Finset.range L,
          (getCell t i j - getCell t ((i + 1) % L) j) ^ 2 +
            (getCell t i j - getCell t i ((j + 1) % L)) ^ 2 = 0 := by
        have hout := (Finset.sum_eq_zero_iff_of_nonneg
          (fun i hi => Finset.sum_nonneg fun j hj => hterm i hi j hj)).mp h0
        intro i hi
        exact (Finset.sum_eq_zero_iff_of_nonneg (fun j hj => hterm i hi j hj)).mp (hout i hi)
      have hdiff : ∀ i ∈ Finset.range L, ∀ j ∈ Finset.range L,
          getCell t i j = getCell t ((i + 1) % L) j ∧
            getCell t i j = getCell t i ((j + 1) % L) := by
        intro i hi j hj
        obtain ⟨h1, h2⟩ := sq_add_sq_eq_zero (hall i hi j hj)
        exact ⟨by linarith, by linarith⟩
      intro i hi j hj
      rw [Finset.mem_range] at hi hj
      have hcol : getCell t i j = getCell t 0 j := by
        refine cycle_constant L (fun k => getCell t k j) (fun k hk => ?_) i hi
        exact (hdiff k (Finset.mem_range.mpr hk) j (Finset.mem_range.mpr hj)).1
      have hLpos : 0 < L := Nat.zero_lt_of_lt hj
      have hrow : getCell t 0 j = getCell t 0 0 := by
        refine cycle_constant L (fun k => getCell t 0 k) (fun k hk => ?_) j hj
        exact (hdiff 0 (Finset.mem_range.mpr hLpos) k (Finset.mem_range.mpr hk)).2
      rw [hcol, hrow]
    · intro hc
      refine Finset.sum_eq_zero fun i hi => Finset.sum_eq_zero fun j hj => ?_
      have hLpos : 0 < L := Nat.zero_lt_of_lt (Finset.mem_range.mp hi)
      have h1 : getCell t i j = getCell t 0 0 := hc i hi j hj
      have h2 : getCell t ((i + 1) % L) j = getCell t 0 0 :=
        hc _ (Finset.mem_range.mpr (Nat.mod_lt _ hLpos)) j hj
      have h3 : getCell t i ((j + 1) % L) = getCell t 0 0 :=
        hc i hi _ (Finset.mem_range.mpr (Nat.mod_lt _ hLpos))
      rw [h1, h2, h3]
      ring

/-- Concrete instance of claim C5 at `L = 2`. -/
theorem claim_c5_witness :
    0 ≤ calcPlacementCost 2 [[1, 1], [1, 1]] ∧ calcPlacementCost 2 [[1, 1], [1, 1]] = 0 :=
  ⟨(claim_c5_smoothness_cost 2 [[1, 1], [1, 1]]).1,
    (claim_c5_smoothness_cost 2 [[1, 1], [1, 1]]).2.mpr (by decide)⟩


lemma getD_set {α : Type} (l : List α) (i k : Nat) (a d : α) :
    (l.set i a).getD k d = if i = k ∧ i < l.length then a else l.getD k d := by
  rw [List.getD_eq_getElem?_getD, List.getElem?_set]
  by_cases h1 : i = k
  · subst h1
    by_cases h2 : i < l.length
    · simp [h2]
    · simp [h2, List.getD_eq_getElem?_getD, List.getElem?_eq_none (Nat.le_of_not_lt h2)]
  · simp [h1, List.getD_eq_getElem?_getD]

lemma getD_set_ne {α : Type} {l : List α} {i j : Nat} {a d : α} (h : i ≠ j) :
    (l.set i a).getD j d = l.getD j d := by
  rw [getD_set, if_neg (fun hc => h hc.1)]

lemma getCell_setCell_ne (t : Grid) {i j i' j' : Nat} (v : Int)
    (h : ¬(i = i' ∧ j = j')) : getCell (setCell t i j v) i' j' = getCell t i' j' := by
  unfold getCell setCell
  rw [getD_set]
  by_cases hi : i = i' ∧ i < t.length
  · rw [if_pos hi]
    have hj : j ≠ j' := fun hj => h ⟨hi.1, hj⟩
    rw [getD_set, if_neg (fun hc => hj hc.1), hi.1]
  · rw [if_neg hi]

lemma getCell_setCell_or (t : Grid) (i j i' j' : Nat) (v : Int) :
    getCell (setCell t i j v) i' j' = getCell t i' j' ∨
      getCell (setCell t i j v) i' j' = v := by
  unfold getCell setCell
  rw [getD_set]
  by_cases hi : i = i' ∧ i < t.length
  · rw [if_pos hi, getD_set]
    by_cases hj : j = j' ∧ j < (t.getD i []).length
    · rw [if_pos hj]
      exact Or.inr rfl
    · rw [if_neg hj, hi.1]
      exact Or.inl rfl
  · rw [if_neg hi]
    exact Or.inl rfl

lemma getCell_of_length_le {t : Grid} {i : Nat} (j : Nat) (hi : t.length ≤ i) :
    getCell t i j = 0 := by
  unfold getCell
  rw [List.getD_eq_getElem?_getD t i [], List.getElem?_eq_none hi]
  rfl

lemma getCell_of_row_length_le {t : Grid} {i j : Nat} (hi : i < t.length)
    (hj : t[i].length ≤ j) : getCell t i j = 0 := by
  unfold getCell
  rw [List.getD_eq_getElem?_getD t i [], List.getElem?_eq_getElem hi]
  simp only [Option.getD_some]
  rw [List.getD_eq_getElem?_getD, List.getElem?_eq_none hj]
  rfl

lemma getCell_eq_getElem {t : Grid} {i j : Nat} (hi : i < t.length)
    (hj : j < t[i].length) : getCell t i j = t[i][j] := by
  unfold getCell
  rw [List.getD_eq_getElem?_getD t i [], List.getElem?_eq_getElem hi]
  simp only [Option.getD_some]
  rw [List.getD_eq_getElem?_getD, List.getElem?_eq_getElem hj]
  rfl

/-- The clamped-cell range invariant as a proposition over all cell reads. -/
lemma inRange1000_iff (t : Grid) :
    inRange1000 t = true ↔ ∀ i j, 0 ≤ getCell t i j ∧ getCell t i j ≤ 1000 := by
  unfold inRange1000
  rw [List.all_eq_true]
  constructor
  · intro h i j
    rcases Nat.lt_or_ge i t.length with hi | hi
    · rcases Nat.lt_or_ge j (t[i].length) with hj | hj
      · rw [getCell_eq_getElem hi hj]
        have hrow := h t[i] (t.getElem_mem hi)
        rw [List.all_eq_true] at hrow
        have := hrow t[i][j] (t[i].getElem_mem hj)
        simp only [Bool.and_eq_true, decide_eq_true_eq] at this
        exact this
      · rw [getCell_of_row_length_le hi hj]
        norm_num
    · rw [getCell_of_length_le j hi]
      norm_num
  · intro h row hrow
    rw [List.all_eq_true]
    intro v hv
    obtain ⟨i, hi, hrowi⟩ := List.mem_iff_getElem.mp hrow
    obtain ⟨j, hj, hvj⟩ := List.mem_iff_getElem.mp hv
    have hget : getCell t i j = v := by
      rw [getCell_eq_getElem hi (by rw [hrowi]; exact hj)]
      subst hrowi
      exact hvj
    obtain ⟨h1, h2⟩ := h i j
    rw [hget] at h1 h2
    simp only [Bool.and_eq_true, decide_eq_true_eq]
    exact ⟨h1, h2⟩

lemma mem_permitPos {L : Nat} {pro : List (Nat × Nat)} {c : Nat × Nat} :
    c ∈ permitPos L pro ↔ c.1 < L ∧ c.2 < L ∧ c ∉ pro := by
  obtain ⟨i, j⟩ := c
  simp only [permitPos, List.mem_flatMap, List.mem_map, List.mem_filter, List.mem_range,
    decide_eq_true_eq]
  constructor
  · rintro ⟨a, ha, b, ⟨hb, hnb⟩, heq⟩
    obtain ⟨rfl, rfl⟩ := Prod.mk.injEq .. ▸ And.intro (congrArg Prod.fst heq) (congrArg Prod.snd heq)
    exact ⟨ha, hb, hnb⟩
  · rintro ⟨hi, hj, hn⟩
    exact ⟨i, hi, j, ⟨hj, hn⟩, rfl⟩

lemma permitPos_eq_nil {L : Nat} {pro : List (Nat × Nat)}
    (h : ∀ i j, i < L → j < L → (i, j) ∈ pro) : permitPos L pro = [] := by
  by_contra hne
  obtain ⟨c, hc⟩ := List.exists_mem_of_ne_nil _ hne
  obtain ⟨h1, h2, h3⟩ := mem_permitPos.mp hc
  exact h3 (by obtain ⟨i, j⟩ := c; exact h i j h1 h2)

lemma permitPos_ne_nil {L : Nat} {pro : List (Nat × Nat)} (h : pro.length < L * L) :
    permitPos L pro ≠ [] := by
  intro hnil
  have hsub : Finset.range L ×ˢ Finset.range L ⊆ pro.toFinset := by
    intro c hc
    rw [Finset.mem_product, Finset.mem_range, Finset.mem_range] at hc
    rw [List.mem_toFinset]
    by_contra hcn
    have : c ∈ permitPos L pro := mem_permitPos.mpr ⟨hc.1, hc.2, hcn⟩
    rw [hnil] at this
    exact List.not_mem_nil c this
  have hcard := Finset.card_le_card hsub
  rw [Finset.card_product, Finset.card_range] at hcard
  have := pro.toFinset_card_le
  omega


lemma applyPerturb_some {rand : Int} (hrand : 0 ≤ rand) (permit : List (Nat × Nat))
    (t : Grid) (d : Nat × Nat) : ∃ t2, applyPerturb rand permit t d = some t2 := by
  unfold applyPerturb randint
  rw [if_neg (by omega)]
  exact ⟨_, rfl⟩

lemma applyPerturb_none {rand : Int} (hrand : rand < 0) (permit : List (Nat × Nat))
    (t : Grid) (d : Nat × Nat) : applyPerturb rand permit t d = none := by
  unfold applyPerturb randint
  rw [if_pos (by omega)]
  rfl

lemma applyPerturb_inRange {rand : Int} {permit : List (Nat × Nat)} {t t2 : Grid}
    {d : Nat × Nat} (ht : inRange1000 t = true)
    (h : applyPerturb rand permit t d = some t2) : inRange1000 t2 = true := by
  unfold applyPerturb at h
  rcases hr : randint (-rand) rand d.2 with _ | dv
  · rw [hr] at h
    exact absurd h (by simp)
  · rw [hr] at h
    simp only [Option.map_some', Option.some.injEq] at h
    rw [inRange1000_iff] at ht ⊢
    intro i j
    rw [← h]
    rcases getCell_setCell_or t _ _ i j (max 0 (min 1000 (getCell t _ _ + dv))) with hc | hc
    · rw [hc]
      exact ht i j
    · rw [hc]
      constructor
      · exact le_max_left 0 _
      · rw [max_le_iff]
        exact ⟨by norm_num, le_trans (min_le_left _ _) (le_refl _)⟩

lemma applyPerturb_frame {rand : Int} {permit pro : List (Nat × Nat)} {t t2 : Grid}
    {d : Nat × Nat} (hdisj : ∀ c ∈ permit, c ∉ pro) (hne : permit ≠ [])
    (h : applyPerturb rand permit t d = some t2) :
    ∀ p ∈ pro, getCell t2 p.1 p.2 = getCell t p.1 p.2 := by
  intro p hp
  unfold applyPerturb at h
  rcases hr : randint (-rand) rand d.2 with _ | dv
  · rw [hr] at h
    exact absurd h (by simp)
  · rw [hr] at h
    simp only [Option.map_some', Option.some.injEq] at h
    have hlen : 0 < permit.length := List.length_pos_of_ne_nil hne
    have hidx : d.1 % permit.length < permit.length := Nat.mod_lt _ hlen
    have hmem : permit.getD (d.1 % permit.length) (0, 0) ∈ permit := by
      rw [List.getD_eq_getElem?_getD, List.getElem?_eq_getElem hidx]
      exact permit.getElem_mem hidx
    have hnp : permit.getD (d.1 % permit.length) (0, 0) ≠ p := by
      intro hc
      exact hdisj _ hmem (hc ▸ hp)
    rw [← h]
    refine getCell_setCell_ne t _ (fun hc => hnp ?_)
    obtain ⟨h1, h2⟩ := hc
    exact Prod.ext h1 h2

lemma applyPerturbs_some {rand : Int} (hrand : 0 ≤ rand) (permit : List (Nat × Nat)) :
    ∀ (ps : List (Nat × Nat)) (t : Grid), ∃ t2, applyPerturbs rand permit t ps = some t2 := by
  intro ps
  induction ps with
  | nil => exact fun t => ⟨t, rfl⟩
  | cons p ps ih =>
    intro t
    obtain ⟨t1, h1⟩ := applyPerturb_some hrand permit t p
    obtain ⟨t2, h2⟩ := ih t1
    exact ⟨t2, by unfold applyPerturbs; rw [h1]; exact h2⟩

lemma applyPerturbs_inRange {rand : Int} {permit : List (Nat × Nat)} :
    ∀ {ps : List (Nat × Nat)} {t t2 : Grid}, inRange1000 t = true →
      applyPerturbs rand permit t ps = some t2 → inRange1000 t2 = true := by
  intro ps
  induction ps with
  | nil =>
    intro t t2 ht h
    unfold applyPerturbs at h
    rw [← Option.some.injEq t t2 |>.mp h]
    exact ht
  | cons p ps ih =>
    intro t t2 ht h
    unfold applyPerturbs at h
    rcases h1 : applyPerturb rand permit t p with _ | t1
    · rw [h1] at h
      exact absurd h (by simp)
    · rw [h1] at h
      exact ih (applyPerturb_inRange ht h1) h

lemma applyPerturbs_frame {rand : Int} {permit pro : List (Nat × Nat)}
    (hdisj : ∀ c ∈ permit, c ∉ pro) (hne : permit ≠ []) :
    ∀ {ps : List (Nat × Nat)} {t t2 : Grid}, applyPerturbs rand permit t ps = some t2 →
      ∀ p ∈ pro, getCell t2 p.1 p.2 = getCell t p.1 p.2 := by
  intro ps
  induction ps with
  | nil =>
    intro t t2 h p hp
    unfold applyPerturbs at h
    rw [← Option.some.injEq t t2 |>.mp h]
  | cons q ps ih =>
    intro t t2 h p hp
    unfold applyPerturbs at h
    rcases h1 : applyPerturb rand permit t q with _ | t1
    · rw [h1] at h
      exact absurd h (by simp)
    · rw [h1] at h
      rw [ih h p hp, applyPerturb_frame hdisj hne h1 p hp]


lemma annealStep_inRange {L : Nat} {rand : Int} {permit : List (Nat × Nat)}
    {st st' : Grid × Int} {mv : AnnealMove} (ht : inRange1000 st.1 = true)
    (h : annealStep L rand permit st mv = some st') : inRange1000 st'.1 = true := by
  unfold annealStep at h
  rcases hp : applyPerturbs rand permit st.1 mv.perturbs with _ | newT
  · rw [hp] at h
    exact absurd h (by simp)
  · rw [hp] at h
    simp only [Option.some.injEq] at h
    rw [← h]
    by_cases hacc : calcPlacementCost L newT - st.2 < 0 ∨ mv.accept = true
    · rw [if_pos hacc]
      exact applyPerturbs_inRange ht hp
    · rw [if_neg hacc]
      exact ht

lemma annealStep_frame {L : Nat} {rand : Int} {permit pro : List (Nat × Nat)}
    {st st' : Grid × Int} {mv : AnnealMove} (hdisj : ∀ c ∈ permit, c ∉ pro)
    (hne : permit ≠ []) (h : annealStep L rand permit st mv = some st') :
    ∀ p ∈ pro, getCell st'.1 p.1 p.2 = getCell st.1 p.1 p.2 := by
  intro p hp
  unfold annealStep at h
  rcases hps : applyPerturbs rand permit st.1 mv.perturbs with _ | newT
  · rw [hps] at h
    exact absurd h (by simp)
  · rw [hps] at h
    simp only [Option.some.injEq] at h
    rw [← h]
    by_cases hacc : calcPlacementCost L newT - st.2 < 0 ∨ mv.accept = true
    · rw [if_pos hacc]
      exact applyPerturbs_frame hdisj hne hps p hp
    · rw [if_neg hacc]

lemma annealRun_inRange {L : Nat} {rand : Int} {permit : List (Nat × Nat)} :
    ∀ {tr : List AnnealMove} {st st' : Grid × Int}, inRange1000 st.1 = true →
      annealRun L rand permit st tr = some st' → inRange1000 st'.1 = true := by
  intro tr
  induction tr with
  | nil =>
    intro st st' ht h
    unfold annealRun at h
    rw [← Option.some.injEq st st' |>.mp h]
    exact ht
  | cons mv tr ih =>
    intro st st' ht h
    unfold annealRun at h
    rcases h1 : annealStep L rand permit st mv with _ | st1
    · rw [h1] at h
      exact absurd h (by simp)
    · rw [h1] at h
      exact ih (annealStep_inRange ht h1) h

lemma annealRun_frame {L : Nat} {rand : Int} {permit pro : List (Nat × Nat)}
    (hdisj : ∀ c ∈ permit, c ∉ pro) (hne : permit ≠ []) :
    ∀ {tr : List AnnealMove} {st st' : Grid × Int},
      annealRun L rand permit st tr = some st' →
      ∀ p ∈ pro, getCell st'.1 p.1 p.2 = getCell st.1 p.1 p.2 := by
  intro tr
  induction tr with
  | nil =>
    intro st st' h p hp
    unfold annealRun at h
    rw [← Option.some.injEq st st' |>.mp h]
  | cons mv tr ih =>
    intro st st' h p hp
    unfold annealRun at h
    rcases h1 : annealStep L rand permit st mv with _ | st1
    · rw [h1] at h
      exact absurd h (by simp)
    · rw [h1] at h
      rw [ih h p hp, annealStep_frame hdisj hne h1 p hp]

lemma annealRun_noaccept {L : Nat} {rand : Int} {permit : List (Nat × Nat)} :
    ∀ {tr : List AnnealMove} {st st' : Grid × Int}, (∀ mv ∈ tr, mv.accept = false) →
      st.2 = calcPlacementCost L st.1 → annealRun L rand permit st tr = some st' →
      st'.2 = calcPlacementCost L st'.1 ∧ st'.2 ≤ st.2 := by
  intro tr
  induction tr with
  | nil =>
    intro st st' hacc hc h
    unfold annealRun at h
    rw [← Option.some.injEq st st' |>.mp h]
    exact ⟨hc, le_refl _⟩
  | cons mv tr ih =>
    intro st st' hacc hc h
    unfold annealRun at h
    rcases h1 : annealStep L rand permit st mv with _ | st1
    · rw [h1] at h
      exact absurd h (by simp)
    · rw [h1] at h
      have hmv : mv.accept = false := hacc mv (List.mem_cons_self mv tr)
      unfold annealStep at h1
      rcases hps : applyPerturbs rand permit st.1 mv.perturbs with _ | newT
      · rw [hps] at h1
        exact absurd h1 (by simp)
      · rw [hps] at h1
        simp only [Option.some.injEq] at h1
        by_cases hlt : calcPlacementCost L newT - st.2 < 0 ∨ mv.accept = true
        · rw [if_pos hlt] at h1
          rcases hlt with hlt | hlt
          · have := ih (fun m hm => hacc m (List.mem_cons_of_mem mv hm)) (by rw [← h1]) h
            refine ⟨this.1, le_trans this.2 ?_⟩
            rw [← h1]
            simp only
            omega
          · rw [hmv] at hlt
            exact absurd hlt (by simp)
        · rw [if_neg hlt] at h1
          rw [← h1] at h
          exact ih (fun m hm => hacc m (List.mem_cons_of_mem mv hm)) hc h

lemma annealRun_some {L : Nat} {rand : Int} (hrand : 0 ≤ rand)
    (permit : List (Nat × Nat)) :
    ∀ (tr : List AnnealMove) (st : Grid × Int), ∃ st',
      annealRun L rand permit st tr = some st' := by
  intro tr
  induction tr with
  | nil => exact fun st => ⟨st, rfl⟩
  | cons mv tr ih =>
    intro st
    obtain ⟨newT, hps⟩ := applyPerturbs_some hrand permit mv.perturbs st.1
    have hstep : ∃ st1, annealStep L rand permit st mv = some st1 := by
      unfold annealStep
      rw [hps]
      exact ⟨_, rfl⟩
    obtain ⟨st1, h1⟩ := hstep
    obtain ⟨st', h'⟩ := ih st1
    exact ⟨st', by unfold annealRun; rw [h1]; exact h'⟩

lemma annealRun_none {L : Nat} {rand : Int} (hrand : rand < 0)
    (permit : List (Nat × Nat)) (st : Grid × Int) {mv : AnnealMove}
    (tr : List AnnealMove) (hmv : mv.perturbs ≠ []) :
    annealRun L rand permit st (mv :: tr) = none := by
  unfold annealRun
  rcases hp : mv.perturbs with _ | ⟨p, ps⟩
  · exact absurd hp hmv
  · have hstep : annealStep L rand permit st mv = none := by
      unfold annealStep
      rw [hp]
      unfold applyPerturbs
      rw [applyPerturb_none hrand]
    rw [hstep]


lemma optimize_eq (L : Nat) (t : Grid) (pro : List (Nat × Nat)) (rand : Int)
    (trace : List AnnealMove) :
    optimize L t pro rand trace =
      if (permitPos L pro).length = 0 then some t
      else (annealRun L rand (permitPos L pro) (t, calcPlacementCost L t) trace).map Prod.fst :=
  rfl

lemma optimize_inRange {L : Nat} {t : Grid} {pro : List (Nat × Nat)} {rand : Int}
    {trace : List AnnealMove} {r : Grid} (ht : inRange1000 t = true)
    (h : optimize L t pro rand trace = some r) : inRange1000 r = true := by
  rw [optimize_eq] at h
  by_cases hemp : (permitPos L pro).length = 0
  · rw [if_pos hemp] at h
    rw [← Option.some.injEq t r |>.mp h]
    exact ht
  · rw [if_neg hemp] at h
    obtain ⟨st', hrun, hr⟩ := Option.map_eq_some'.mp h
    rw [← hr]
    exact annealRun_inRange ht hrun

/-- Claim C8: when every grid cell is prohibited the optimizer returns the
input field unchanged, without attempting any optimization and without
raising. -/
theorem claim_c8_empty_eligible_identity (L : Nat) (t : Grid)
    (pro : List (Nat × Nat)) (rand : Int) (trace : List AnnealMove)
    (h : ∀ i j, i < L → j < L → (i, j) ∈ pro) :
    optimize L t pro rand trace = some t := by
  rw [optimize_eq, permitPos_eq_nil h]
  rfl

/-- Concrete instance of claim C8 on a fully prohibited 1×1 grid with a
negative perturbation magnitude and a nonempty trace. -/
theorem claim_c8_witness :
    optimize 1 [[7]] [(0, 0)] (-5) [⟨[(0, 0)], true⟩] = some [[7]] :=
  claim_c8_empty_eligible_identity 1 [[7]] [(0, 0)] (-5) [⟨[(0, 0)], true⟩]
    (fun i j hi hj => by
      have hi0 : i = 0 := Nat.lt_one_iff.mp hi
      have hj0 : j = 0 := Nat.lt_one_iff.mp hj
      subst hi0
      subst hj0
      exact List.mem_singleton.mpr rfl)

/-- Claim C7: prohibited cells are never touched by the annealing mutation
step; on any successful run the returned field agrees with the input field on
every prohibited cell. -/
theorem claim_c7_prohibited_frame (L : Nat) (t : Grid) (pro : List (Nat × Nat))
    (rand : Int) (trace : List AnnealMove) (r : Grid)
    (h : optimize L t pro rand trace = some r) :
    ∀ p ∈ pro, getCell r p.1 p.2 = getCell t p.1 p.2 := by
  intro p hp
  rw [optimize_eq] at h
  by_cases hemp : (permitPos L pro).length = 0
  · rw [if_pos hemp] at h
    rw [← Option.some.injEq t r |>.mp h]
  · rw [if_neg hemp] at h
    obtain ⟨st', hrun, hr⟩ := Option.map_eq_some'.mp h
    rw [← hr]
    have hdisj : ∀ c ∈ permitPos L pro, c ∉ pro := fun c hc => (mem_permitPos.mp hc).2.2
    have hne : permitPos L pro ≠ [] := fun hc => hemp (by rw [hc]; rfl)
    exact annealRun_frame hdisj hne hrun p hp

/-- Concrete instance of claim C7: the prohibited cell `(0,0)` keeps its value
through a run that mutates another cell. -/
theorem claim_c7_witness :
    optimize 2 [[3, 0], [0, 0]] [(0, 0)] 1 [⟨[(0, 5)], true⟩] = some [[3, 1], [0, 0]] ∧
      getCell [[3, 1], [0, 0]] 0 0 = getCell [[3, 0], [0, 0]] 0 0 :=
  ⟨by decide,
    claim_c7_prohibited_frame 2 [[3, 0], [0, 0]] [(0, 0)] 1 [⟨[(0, 5)], true⟩]
      [[3, 1], [0, 0]] (by decide) (0, 0) (by decide)⟩

/-- Counterexample to claim C1 as stated: a Metropolis acceptance of a
worsening proposal is stored into `best_temperature`, so the returned field
can cost strictly more than the initial field.  Here the uphill move (accepted
with probability `exp(-4/100) > 0` in the Python code) raises the cost from 0
to 4. -/
theorem claim_c1_counterexample :
    optimize 2 [[0, 0], [0, 0]] [] 1 [⟨[(0, 2)], true⟩] = some [[1, 0], [0, 0]] ∧
      calcPlacementCost 2 [[0, 0], [0, 0]] < calcPlacementCost 2 [[1, 0], [0, 0]] := by
  decide

/-- Claim C1, amended: the optimizer retains the last accepted proposal, not
the best field seen; its cost never exceeds the initial cost provided no
worsening proposal is accepted through the Metropolis coin (in particular the
cost of the returned field is then at most the initial cost, and with an empty
eligible set the input is returned unchanged). -/
theorem claim_c1_amended (L : Nat) (t : Grid) (pro : List (Nat × Nat))
    (rand : Int) (trace : List AnnealMove) (r : Grid)
    (hacc : ∀ mv ∈ trace, mv.accept = false)
    (h : optimize L t pro rand trace = some r) :
    calcPlacementCost L r ≤ calcPlacementCost L t := by
  rw [optimize_eq] at h
  by_cases hemp : (permitPos L pro).length = 0
  · rw [if_pos hemp] at h
    rw [← Option.some.injEq t r |>.mp h]
  · rw [if_neg hemp] at h
    obtain ⟨st', hrun, hr⟩ := Option.map_eq_some'.mp h
    have := annealRun_noaccept hacc rfl hrun
    rw [← hr, ← this.1]
    exact this.2

/-- Concrete instance of the amended claim C1: with the Metropolis coin never
firing, a run returns a field no more expensive than the input. -/
theorem claim_c1_witness :
    optimize 1 [[5]] [] 0 [⟨[(0, 0)], false⟩] = some [[5]] ∧
      calcPlacementCost 1 [[5]] ≤ calcPlacementCost 1 [[5]] :=
  ⟨by decide,
    claim_c1_amended 1 [[5]] [] 0 [⟨[(0, 0)], false⟩] [[5]] (by decide) (by decide)⟩


lemma optimize_ne_none_of_nonneg {L : Nat} {t : Grid} {pro : List (Nat × Nat)}
    {rand : Int} (hrand : 0 ≤ rand) (trace : List AnnealMove) :
    optimize L t pro rand trace ≠ none := by
  rw [optimize_eq]
  by_cases hemp : (permitPos L pro).length = 0
  · rw [if_pos hemp]
    exact Option.some_ne_none t
  · rw [if_neg hemp]
    obtain ⟨st', hst⟩ := annealRun_some hrand (permitPos L pro) trace (t, calcPlacementCost L t)
    rw [hst]
    exact Option.some_ne_none st'.1

lemma optimize_none_of_neg {L : Nat} {t : Grid} {pro : List (Nat × Nat)}
    {rand : Int} (hrand : rand < 0) (hpro : pro.length < L * L)
    {mv : AnnealMove} (tr : List AnnealMove) (hmv : mv.perturbs ≠ []) :
    optimize L t pro rand (mv :: tr) = none := by
  rw [optimize_eq]
  have hne : permitPos L pro ≠ [] := permitPos_ne_nil hpro
  rw [if_neg (fun hc => hne (List.length_eq_zero.mp hc))]
  rw [annealRun_none hrand (permitPos L pro) (t, calcPlacementCost L t) tr hmv]
  rfl

/-- Claim C10: Variant A uses the perturbation magnitude `N // 20 - 2`, which
is negative exactly for `N ≤ 39`; in that case the first perturbation of the
annealing loop raises (`random.randint` over the empty range `[-rand, rand]`)
and no field is returned, while for `N ≥ 40` the perturbation step can never
raise.  The episode constraint `10 ≤ L` keeps at least one eligible cell, so
the annealing loop is actually entered; a realisable Python run always
performs at least one proposal with at least one perturbation, reflected in
the nonemptiness hypotheses. -/
theorem claim_c10_negative_magnitude :
    (∀ N : Nat, N ≤ 39 → onePointRand N < 0) ∧
      (∀ (L N : Nat) (landing_pos : List Pos) (mv : AnnealMove) (tr : List AnnealMove),
        10 ≤ L → N ≤ 39 → landing_pos.length = N → mv.perturbs ≠ [] →
        onePointTemperatureRun L N landing_pos (mv :: tr) = none) ∧
      (∀ N : Nat, 40 ≤ N → 0 ≤ onePointRand N) ∧
      (∀ (L N : Nat) (landing_pos : List Pos) (trace : List AnnealMove), 40 ≤ N →
        onePointTemperatureRun L N landing_pos trace ≠ none) := by
  have hneg : ∀ N : Nat, N ≤ 39 → onePointRand N < 0 := by
    intro N hN
    unfold onePointRand
    omega
  refine ⟨hneg, ?_, ?_, ?_⟩
  · intro L N landing_pos mv tr hL hN hlen hmv
    unfold onePointTemperatureRun
    refine optimize_none_of_neg (hneg N hN) ?_ tr hmv
    rw [List.length_map, hlen]
    have : 100 ≤ L * L := Nat.mul_le_mul hL hL
    omega
  · intro N hN
    unfold onePointRand
    omega
  · intro L N landing_pos trace hN
    unfold onePointTemperatureRun
    exact optimize_ne_none_of_nonneg (by unfold onePointRand; omega) trace

/-- Concrete instances of claim C10: the magnitude is negative at `N = 1` and a
run with `N = 1` fails, while at `N = 40` the magnitude is non-negative and a
run cannot fail. -/
theorem claim_c10_witness :
    onePointRand 1 < 0 ∧
      onePointTemperatureRun 10 1 [⟨0, 0⟩] [⟨[(0, 0)], true⟩] = none ∧
      0 ≤ onePointRand 40 ∧
      onePointTemperatureRun 0 40 [] [] ≠ none :=
  ⟨claim_c10_negative_magnitude.1 1 (by decide),
    claim_c10_negative_magnitude.2.1 10 1 [⟨0, 0⟩] ⟨[(0, 0)], true⟩ [] (by decide)
      (by decide) (by decide) (by decide),
    claim_c10_negative_magnitude.2.2.1 40 (by decide),
    claim_c10_negative_magnitude.2.2.2 0 40 [] [] (by decide)⟩


lemma foldl_preserve {α ι : Type} {P : α → Prop} (step : α → ι → α) :
    ∀ (l : List ι) (a : α), (∀ a' i, i ∈ l → P a' → P (step a' i)) → P a →
      P (l.foldl step a) := by
  intro l
  induction l with
  | nil => exact fun a _ ha => ha
  | cons x xs ih =>
    intro a hstep ha
    rw [List.foldl_cons]
    exact ih (step a x) (fun a' i hi => hstep a' i (List.mem_cons_of_mem x hi))
      (hstep a x (List.mem_cons_self x xs) ha)

lemma inRange1000_zeros (L : Nat) : inRange1000 (zeros L) = true := by
  rw [inRange1000_iff]
  intro i j
  unfold zeros getCell
  rcases Nat.lt_or_ge i L with hi | hi
  · rw [List.getD_eq_getElem?_getD (List.replicate L (List.replicate L 0)) i [],
      List.getElem?_replicate_of_lt hi]
    simp only [Option.getD_some]
    rcases Nat.lt_or_ge j L with hj | hj
    · rw [List.getD_eq_getElem?_getD, List.getElem?_replicate_of_lt hj]
      norm_num
    · rw [List.getD_eq_getElem?_getD, List.getElem?_eq_none (by simpa using hj)]
      norm_num
  · rw [List.getD_eq_getElem?_getD (List.replicate L (List.replicate L 0)) i [],
      List.getElem?_eq_none (by simpa using hi)]
    norm_num

lemma setCell_inRange {t : Grid} {v : Int} (ht : inRange1000 t = true)
    (h0 : 0 ≤ v) (h1 : v ≤ 1000) (i j : Nat) :
    inRange1000 (setCell t i j v) = true := by
  rw [inRange1000_iff] at ht ⊢
  intro a b
  rcases getCell_setCell_or t i j a b v with hc | hc
  · rw [hc]
    exact ht a b
  · rw [hc]
    exact ⟨h0, h1⟩

lemma ringWrite_inRange {L : Nat} {pro : List (Nat × Nat)} {aval : Int}
    (h0 : 0 ≤ aval) (h1 : aval ≤ 1000) (pos : Pos) (offs : List (Int × Int))
    {t : Grid} (ht : inRange1000 t = true) :
    inRange1000 (ringWrite L pro aval pos offs t) = true := by
  unfold ringWrite
  refine @foldl_preserve Grid (Int × Int) (fun t => inRange1000 t = true) _ offs t
    (fun t' d _ ht' => ?_) ht
  by_cases hz : getCell t' (wrapIdx L pos.y d.1) (wrapIdx L pos.x d.2) = 0
  · rw [if_pos hz]
    exact setCell_inRange ht' h0 h1 _ _
  · rw [if_neg hz]
    by_cases hv : getCell t' (wrapIdx L pos.y d.1) (wrapIdx L pos.x d.2) ≠ 0 ∧
        (wrapIdx L pos.y d.1, wrapIdx L pos.x d.2) ∉ pro
    · rw [if_pos hv]
      have hold := (inRange1000_iff t').mp ht' (wrapIdx L pos.y d.1) (wrapIdx L pos.x d.2)
      refine setCell_inRange ht' ?_ ?_ _ _
      · exact Int.ediv_nonneg (by omega) (by norm_num)
      · calc (getCell t' (wrapIdx L pos.y d.1) (wrapIdx L pos.x d.2) + aval) / 2
            ≤ 2000 / 2 := Int.ediv_le_ediv (by norm_num) (by omega)
          _ = 1000 := by decide
    · rw [if_neg hv]
      exact ht'

lemma fillZeros_inRange {L : Nat} {avg : Int} (h0 : 0 ≤ avg) (h1 : avg ≤ 1000)
    {t : Grid} (ht : inRange1000 t = true) :
    inRange1000 (fillZeros L avg t) = true := by
  unfold fillZeros
  refine @foldl_preserve Grid Nat (fun t => inRange1000 t = true) _ (List.range L) t
    (fun t' i _ ht' => ?_) ht
  refine @foldl_preserve Grid Nat (fun t => inRange1000 t = true) _ (List.range L) t'
    (fun t2 j _ ht2 => ?_) ht'
  by_cases hz : getCell t2 i j = 0
  · rw [if_pos hz]
    exact setCell_inRange ht2 h0 h1 _ _
  · rw [if_neg hz]
    exact ht2

lemma onePointAvg_le (N : Nat) : onePointAvg N ≤ N + 1 := by
  unfold onePointAvg
  have h2 : (2 + N * 2) * N / 2 = N + N * N := by
    have : (2 + N * 2) * N = 2 * (N + N * N) := by ring
    rw [this, Nat.mul_div_cancel_left _ (by norm_num)]
  rw [h2]
  rcases Nat.eq_zero_or_pos N with h | h
  · subst h
    norm_num
  · have : N + N * N = N * (1 + N) := by ring
    rw [this, Nat.mul_div_cancel_left _ h]
    omega

lemma onePointBuild_inRange {L N : Nat} (hN : N ≤ 100) (landing_pos : List Pos) :
    inRange1000 (onePointBuild L N landing_pos) = true := by
  have havg0 : (0 : Int) ≤ (onePointAvg N : Int) := Int.natCast_nonneg _
  have havg1 : ((onePointAvg N : Nat) : Int) ≤ 1000 := by
    have := onePointAvg_le N
    have : onePointAvg N ≤ 101 := by omega
    exact_mod_cast le_trans (Nat.cast_le.mpr this) (by norm_num)
  unfold onePointBuild
  refine fillZeros_inRange havg0 havg1 ?_
  refine @foldl_preserve Grid Nat (fun t => inRange1000 t = true) _ (List.range N) (zeros L)
    (fun t i hi ht => ?_) (inRange1000_zeros L)
  rw [List.mem_range] at hi
  have hsite0 : (0 : Int) ≤ (2 : Nat) * ((i : Int) + 1) := by positivity
  have hsite1 : ((2 : Nat) : Int) * ((i : Int) + 1) ≤ 1000 := by
    push_cast
    omega
  have hc0 : (0 : Int) ≤ 2 * ((i : Int) + 1) := by positivity
  have hc1 : 2 * ((i : Int) + 1) ≤ 1000 := by
    omega
  refine ringWrite_inRange ?_ ?_ _ around3 (ringWrite_inRange ?_ ?_ _ around2
    (ringWrite_inRange ?_ ?_ _ around1 (setCell_inRange ht hsite0 hsite1 _ _)))
  · exact Int.ediv_nonneg (by omega) (by norm_num)
  · calc (2 * ((i : Int) + 1) + 3 * (onePointAvg N : Int)) / 4 ≤ 4000 / 4 :=
        Int.ediv_le_ediv (by norm_num) (by omega)
      _ = 1000 := by decide
  · exact Int.ediv_nonneg (by omega) (by norm_num)
  · calc (2 * ((i : Int) + 1) + (onePointAvg N : Int)) / 2 ≤ 2000 / 2 :=
        Int.ediv_le_ediv (by norm_num) (by omega)
      _ = 1000 := by decide
  · exact Int.ediv_nonneg (by omega) (by norm_num)
  · calc (3 * (2 * ((i : Int) + 1)) + (onePointAvg N : Int)) / 4 ≤ 4000 / 4 :=
        Int.ediv_le_ediv (by norm_num) (by omega)
      _ = 1000 := by decide


lemma singularTemperatureRun_inRange (L N S : Nat) (landing_pos : List Pos) :
    inRange1000 (singularTemperatureRun L N S landing_pos).1 = true := by
  unfold singularTemperatureRun
  refine setCell_inRange (inRange1000_zeros L) ?_ ?_ _ _
  · exact le_min (by norm_num) (by positivity)
  · exact min_le_left _ _

lemma singularTemperature2Run_inRange (L N S : Nat) (landing_pos : List Pos) :
    inRange1000 (singularTemperature2Run L N S landing_pos).1 = true := by
  unfold singularTemperature2Run
  refine setCell_inRange (setCell_inRange (inRange1000_zeros L) ?_ ?_ _ _) ?_ ?_ _ _
  · exact le_min (by norm_num) (by positivity)
  · exact min_le_left _ _
  · exact le_min (by norm_num) (by positivity)
  · exact min_le_left _ _

lemma aroundCenterTemps_getD (N : Nat) (g : Nat → Int) (i : Nat) :
    0 ≤ (aroundCenterTemps N g).getD i 0 ∧ (aroundCenterTemps N g).getD i 0 ≤ 1000 := by
  rcases Nat.lt_or_ge i (aroundCenterTemps N g).length with hi | hi
  · have hmem : (aroundCenterTemps N g).getD i 0 ∈ aroundCenterTemps N g := by
      rw [List.getD_eq_getElem?_getD, List.getElem?_eq_getElem hi]
      exact List.getElem_mem hi
    have hmem2 : (aroundCenterTemps N g).getD i 0 ∈
        (List.range N).map (fun k => min 1000 (max 0 (g k))) :=
      (List.perm_insertionSort _ _).mem_iff.mp hmem
    obtain ⟨k, _, hk⟩ := List.mem_map.mp hmem2
    rw [← hk]
    constructor
    · exact le_min (by norm_num) (le_max_left 0 _)
    · exact min_le_left _ _
  · rw [List.getD_eq_getElem?_getD, List.getElem?_eq_none hi]
    norm_num

lemma aroundLoopBody_inv {L : Nat} {direction : List (Int × Int)} {g : Nat → Int}
    {centerTemps : List Int} (hct : ∀ i, 0 ≤ centerTemps.getD i 0 ∧ centerTemps.getD i 0 ≤ 1000)
    {st : AroundState} (i : Nat) (hst : AroundInv st) :
    AroundInv (aroundLoopBody L direction g centerTemps st i) := by
  unfold aroundLoopBody
  obtain ⟨ht, h0, h1⟩ := hst
  have hctb := hct i
  set pos := if i % 2 = 0 then st.dq.headD ⟨0, 0⟩ else st.dq.getLastD ⟨0, 0⟩ with hpos
  have ht0 : inRange1000 (setCell st.temperature pos.y pos.x (centerTemps.getD i 0)) = true :=
    setCell_inRange ht hctb.1 hctb.2 _ _
  have hread := (inRange1000_iff _).mp ht0 pos.y pos.x
  refine @foldl_preserve AroundState (Int × Int) AroundInv _ direction _
    (fun a d _ ha => ?_) ⟨ht0, ?_, ?_⟩
  · obtain ⟨hat, ha0, ha1⟩ := ha
    by_cases hz : getCell a.temperature (wrapIdx L pos.y d.1) (wrapIdx L pos.x d.2) = 0
    · rw [if_pos hz]
      have hv0 : (0 : Int) ≤ min 1000 (max 0 (g a.gi)) := le_min (by norm_num) (le_max_left 0 _)
      have hv1 : min 1000 (max 0 (g a.gi)) ≤ 1000 := min_le_left _ _
      have ht1 : inRange1000 (setCell a.temperature (wrapIdx L pos.y d.1) (wrapIdx L pos.x d.2)
          (min 1000 (max 0 (g a.gi)))) = true := setCell_inRange hat hv0 hv1 _ _
      have hread1 := (inRange1000_iff _).mp ht1 (wrapIdx L pos.y d.1) (wrapIdx L pos.x d.2)
      refine ⟨ht1, ?_, ?_⟩
      · show 0 ≤ a.avgSum + getCell (setCell a.temperature (wrapIdx L pos.y d.1)
          (wrapIdx L pos.x d.2) (min 1000 (max 0 (g a.gi)))) (wrapIdx L pos.y d.1)
          (wrapIdx L pos.x d.2)
        omega
      · show a.avgSum + getCell (setCell a.temperature (wrapIdx L pos.y d.1)
          (wrapIdx L pos.x d.2) (min 1000 (max 0 (g a.gi)))) (wrapIdx L pos.y d.1)
          (wrapIdx L pos.x d.2) ≤ 1000 * ((a.num + 1 : Nat) : Int)
        push_cast
        omega
    · rw [if_neg hz]
      exact ⟨hat, ha0, ha1⟩
  · show 0 ≤ st.avgSum + getCell (setCell st.temperature pos.y pos.x (centerTemps.getD i 0))
      pos.y pos.x
    omega
  · show st.avgSum + getCell (setCell st.temperature pos.y pos.x (centerTemps.getD i 0))
      pos.y pos.x ≤ 1000 * ((st.num + 1 : Nat) : Int)
    push_cast
    omega

lemma aroundFold_inv (L N S : Nat) (landing_pos : List Pos) (g : Nat → Int) :
    AroundInv (aroundFold L N S landing_pos g) := by
  unfold aroundFold
  refine @foldl_preserve AroundState Nat AroundInv _ (List.range N) _
    (fun a i _ ha => aroundLoopBody_inv (aroundCenterTemps_getD N g) i ha) ?_
  exact ⟨inRange1000_zeros L, le_refl 0, by norm_num⟩

lemma aroundAvg_range {s : Int} {n : Nat} (h0 : 0 ≤ s) (h1 : s ≤ 1000 * n) :
    0 ≤ s / (n : Int) ∧ s / (n : Int) ≤ 1000 := by
  constructor
  · exact Int.ediv_nonneg h0 (Int.natCast_nonneg n)
  · rcases Nat.eq_zero_or_pos n with hn | hn
    · subst hn
      simp only [Nat.cast_zero, Int.ediv_zero]
      norm_num
    · have hnz : ((n : Int)) ≠ 0 := by positivity
      calc s / (n : Int) ≤ 1000 * n / (n : Int) :=
            Int.ediv_le_ediv (by positivity) h1
        _ = 1000 := by
            rw [Int.mul_ediv_cancel _ hnz]

lemma aroundTemperatureRun_inRange {L N S : Nat} {landing_pos : List Pos}
    {g : Nat → Int} {trace : List AnnealMove} {r : Grid × List (List Int)}
    (h : aroundTemperatureRun L N S landing_pos g trace = some r) :
    inRange1000 r.1 = true := by
  unfold aroundTemperatureRun at h
  obtain ⟨hinv, h0, h1⟩ := aroundFold_inv L N S landing_pos g
  obtain ⟨havg0, havg1⟩ := aroundAvg_range h0 h1
  obtain ⟨tOpt, hopt, hr⟩ := Option.map_eq_some'.mp h
  rw [← hr]
  exact optimize_inRange (fillZeros_inRange havg0 havg1 hinv) hopt

/-- Claim C6: every field produced by a Designer step or an Optimizer step has
all cell values in `[0, 1000]`: the annealing perturbation clamps the mutated
cell, and each designer variant only writes values in that range (Variant A
needs the episode bound `N ≤ 100` for its ranked levels `2 * (i + 1)`). -/
theorem claim_c6_values_in_range :
    (∀ (rand : Int) (permit : List (Nat × Nat)) (t : Grid) (d : Nat × Nat) (t2 : Grid),
      inRange1000 t = true → applyPerturb rand permit t d = some t2 →
        inRange1000 t2 = true) ∧
      (∀ (L : Nat) (t : Grid) (pro : List (Nat × Nat)) (rand : Int)
        (trace : List AnnealMove) (r : Grid), inRange1000 t = true →
        optimize L t pro rand trace = some r → inRange1000 r = true) ∧
      (∀ (L N : Nat) (landing_pos : List Pos) (trace : List AnnealMove) (r : Grid),
        N ≤ 100 → onePointTemperatureRun L N landing_pos trace = some r →
        inRange1000 r = true) ∧
      (∀ (L N S : Nat) (landing_pos : List Pos),
        inRange1000 (singularTemperatureRun L N S landing_pos).1 = true) ∧
      (∀ (L N S : Nat) (landing_pos : List Pos),
        inRange1000 (singularTemperature2Run L N S landing_pos).1 = true) ∧
      (∀ (L N S : Nat) (landing_pos : List Pos) (g : Nat → Int)
        (trace : List AnnealMove) (r : Grid × List (List Int)),
        aroundTemperatureRun L N S landing_pos g trace = some r →
        inRange1000 r.1 = true) := by
  refine ⟨?_, ?_, ?_, singularTemperatureRun_inRange, singularTemperature2Run_inRange, ?_⟩
  · exact fun rand permit t d t2 ht h => applyPerturb_inRange ht h
  · exact fun L t pro rand trace r ht h => optimize_inRange ht h
  · intro L N landing_pos trace r hN h
    unfold onePointTemperatureRun at h
    exact optimize_inRange (onePointBuild_inRange hN landing_pos) h
  · exact fun L N S landing_pos g trace r h => aroundTemperatureRun_inRange h

/-- Concrete instances of claim C6 for each conjunct. -/
theorem claim_c6_witness :
    inRange1000 [[6]] = true ∧
      inRange1000 [[5]] = true ∧
      inRange1000 [] = true ∧
      inRange1000 (singularTemperatureRun 2 1 1 [⟨0, 0⟩]).1 = true ∧
      inRange1000 (singularTemperature2Run 2 1 1 [⟨0, 0⟩]).1 = true ∧
      inRange1000 ([] : Grid) = true :=
  ⟨claim_c6_values_in_range.1 1 [(0, 0)] [[5]] (0, 2) [[6]] (by decide) (by decide),
    claim_c6_values_in_range.2.1 1 [[5]] [] 0 [] [[5]] (by decide) (by decide),
    claim_c6_values_in_range.2.2.1 0 0 [] [] [] (by decide) (by decide),
    claim_c6_values_in_range.2.2.2.1 2 1 1 [⟨0, 0⟩],
    claim_c6_values_in_range.2.2.2.2.1 2 1 1 [⟨0, 0⟩],
    claim_c6_values_in_range.2.2.2.2.2 0 0 0 [] (fun _ => 0) [] ([], [])
      (by decide)⟩


/-- Claim C3: the strategy selector is a pure function of `(S, N)` with exactly
the stated mapping of variants, decoders, neighbourhood sizes, and repeat
count. -/
theorem claim_c3_strategy_selector (S N : Nat) :
    (S = 1 → selectSolver S N = .onePoint ∧ decoderOf .onePoint N = .optimalAssignment) ∧
      (1 < S ∧ S < 169 →
        selectSolver S N = .singular ∧ decoderOf .singular N = .greedyThreshold) ∧
      ((169 ≤ S ∧ S < 289) ∨ (289 ≤ S ∧ S < 400 ∧ N ≤ 71) →
        selectSolver S N = .singular2 ∧
          decoderOf .singular2 N =
            (if N ≤ 71 then .optimalAssignment else .greedyThreshold)) ∧
      (¬S = 1 → ¬(1 < S ∧ S < 169) → ¬((169 ≤ S ∧ S < 289) ∨ (289 ≤ S ∧ S < 400 ∧ N ≤ 71)) →
        selectSolver S N = .around ∧ decoderOf .around N = .optimalAssignment) ∧
      selectSolver S N = selectSolverSpec S N ∧
      aroundSize S N = aroundSizeSpec S N ∧
      aroundDirection S N = (if aroundSize S N = 5 then squareOffsets 2 else squareOffsets 1) ∧
      aroundMeasureCount N (aroundSize S N) = 10000 / N / (aroundSize S N) ^ 2 := by
  refine ⟨?_, ?_, ?_, ?_, ?_, ?_, ?_, rfl⟩
  · intro h1
    unfold selectSolver
    rw [if_pos h1]
    exact ⟨rfl, rfl⟩
  · intro h2
    unfold selectSolver
    rw [if_neg (by omega), if_pos h2]
    exact ⟨rfl, rfl⟩
  · intro h3
    unfold selectSolver decoderOf
    rcases h3 with h3 | h3
    · rw [if_neg (by omega), if_neg (by omega), if_pos h3]
      exact ⟨rfl, rfl⟩
    · rw [if_neg (by omega), if_neg (by omega), if_neg (by omega), if_pos (by omega)]
      exact ⟨rfl, rfl⟩
  · intro h1 h2 h3
    unfold selectSolver
    rw [if_neg h1, if_neg h2, if_neg (fun hc => h3 (Or.inl hc)),
      if_neg (fun hc => h3 (Or.inr hc))]
    exact ⟨rfl, rfl⟩
  · unfold selectSolver selectSolverSpec
    by_cases h1 : S = 1
    · rw [if_pos h1, if_pos h1]
    · rw [if_neg h1, if_neg h1]
      by_cases h2 : 1 < S ∧ S < 169
      · rw [if_pos h2, if_pos h2]
      · rw [if_neg h2, if_neg h2]
        by_cases h3 : 169 ≤ S ∧ S < 289
        · rw [if_pos h3, if_pos (Or.inl h3)]
        · rw [if_neg h3]
          by_cases h4 : 289 ≤ S ∧ S < 400 ∧ N ≤ 71
          · rw [if_pos h4, if_pos (Or.inr h4)]
          · rw [if_neg h4, if_neg (by tauto)]
  · unfold aroundSize aroundSizeSpec
    by_cases h1 : S < 625
    · rw [if_pos h1]
      by_cases h2 : 289 ≤ S ∧ N = 100
      · rw [if_pos h2, if_pos (Or.inr h2)]
      · rw [if_neg h2, if_neg (by omega)]
    · rw [if_neg h1, if_pos (Or.inl (by omega))]
  · unfold aroundDirection aroundSize
    by_cases h1 : S < 625
    · rw [if_pos h1, if_pos h1]
      by_cases h2 : 289 ≤ S ∧ N = 100
      · rw [if_pos h2, if_pos h2, if_pos rfl]
      · rw [if_neg h2, if_neg h2, if_neg (by omega)]
    · rw [if_neg h1, if_neg h1, if_pos rfl]

/-- Concrete instances of claim C3 across the four dispatch regions. -/
theorem claim_c3_witness :
    (selectSolver 1 80 = .onePoint ∧ decoderOf .onePoint 80 = .optimalAssignment) ∧
      (selectSolver 100 80 = .singular ∧ decoderOf .singular 80 = .greedyThreshold) ∧
      (selectSolver 300 60 = .singular2 ∧
        decoderOf .singular2 60 = (if 60 ≤ 71 then .optimalAssignment else .greedyThreshold)) ∧
      (selectSolver 900 100 = .around ∧ decoderOf .around 100 = .optimalAssignment) ∧
      aroundSize 900 100 = aroundSizeSpec 900 100 :=
  ⟨(claim_c3_strategy_selector 1 80).1 rfl,
    (claim_c3_strategy_selector 100 80).2.1 (by omega),
    (claim_c3_strategy_selector 300 60).2.2.1 (Or.inr (by omega)),
    (claim_c3_strategy_selector 900 100).2.2.2.1 (by omega) (by omega) (by omega),
    (claim_c3_strategy_selector 900 100).2.2.2.2.2.1⟩


lemma mem_insertEverywhere {α : Type} {a : α} :
    ∀ {l x : List α}, x ∈ insertEverywhere a l → x.Perm (a :: l) := by
  intro l
  induction l with
  | nil =>
    intro x hx
    unfold insertEverywhere at hx
    rw [List.mem_singleton.mp hx]
  | cons b bs ih =>
    intro x hx
    unfold insertEverywhere at hx
    rcases List.mem_cons.mp hx with hx | hx
    · rw [hx]
    · obtain ⟨y, hy, rfl⟩ := List.mem_map.mp hx
      exact ((ih hy).cons b).trans (List.Perm.swap a b bs)

lemma allPerms_perm {α : Type} : ∀ {l x : List α}, x ∈ allPerms l → x.Perm l := by
  intro l
  induction l with
  | nil =>
    intro x hx
    unfold allPerms at hx
    rw [List.mem_singleton.mp hx]
  | cons a as ih =>
    intro x hx
    unfold allPerms at hx
    obtain ⟨y, hy, hxy⟩ := List.mem_flatMap.mp hx
    exact (mem_insertEverywhere hxy).trans ((ih hy).cons a)

lemma insertEverywhere_mem_append {α : Type} (a : α) :
    ∀ (u v : List α), (u ++ a :: v) ∈ insertEverywhere a (u ++ v) := by
  intro u
  induction u with
  | nil =>
    intro v
    cases v with
    | nil => exact List.mem_singleton.mpr rfl
    | cons b bs => exact List.mem_cons_self _ _
  | cons b u ih =>
    intro v
    unfold insertEverywhere
    exact List.mem_cons_of_mem _ (List.mem_map.mpr ⟨u ++ a :: v, ih v, rfl⟩)

lemma allPerms_complete {α : Type} : ∀ {l p : List α}, p.Perm l → p ∈ allPerms l := by
  intro l
  induction l with
  | nil =>
    intro p hp
    rw [List.perm_nil.mp hp]
    exact List.mem_singleton.mpr rfl
  | cons a as ih =>
    intro p hp
    have ha : a ∈ p := hp.mem_iff.mpr (List.mem_cons_self a as)
    obtain ⟨u, v, rfl⟩ := List.append_of_mem ha
    have huv : (u ++ v).Perm as := by
      have h1 : (u ++ a :: v).Perm (a :: (u ++ v)) := List.perm_middle
      exact (h1.symm.trans hp).cons_inv
    unfold allPerms
    exact List.mem_flatMap.mpr ⟨u ++ v, ih huv, insertEverywhere_mem_append a u v⟩

lemma allPerms_ne_nil {α : Type} : ∀ (l : List α), allPerms l ≠ [] :=
  fun l h => by simpa [h] using allPerms_complete (List.Perm.refl l)

lemma foldl_choice_mem {α : Type} (f : α → α → α) (hf : ∀ b q, f b q = b ∨ f b q = q) :
    ∀ (ps : List α) (p : α), ps.foldl f p ∈ p :: ps := by
  intro ps
  induction ps with
  | nil => exact fun p => List.mem_singleton.mpr rfl
  | cons q ps ih =>
    intro p
    rw [List.foldl_cons]
    rcases hf p q with h | h
    · rw [h]
      rcases List.mem_cons.mp (ih p) with hm | hm
      · exact List.mem_cons.mpr (Or.inl hm)
      · exact List.mem_cons_of_mem _ (List.mem_cons_of_mem _ hm)
    · rw [h]
      exact List.mem_cons_of_mem _ (ih q)

lemma foldl_min_le {α : Type} (key : α → ℚ) (f : α → α → α)
    (hf : ∀ b q, key (f b q) ≤ key b ∧ key (f b q) ≤ key q) :
    ∀ (ps : List α) (p : α) (q : α), q ∈ p :: ps → key (ps.foldl f p) ≤ key q := by
  intro ps
  induction ps with
  | nil =>
    intro p q hq
    rw [List.foldl_nil, List.mem_singleton.mp hq]
  | cons r ps ih =>
    intro p q hq
    rw [List.foldl_cons]
    rcases List.mem_cons.mp hq with hq | hq
    · rw [hq]
      exact le_trans (ih (f p r) (f p r) (List.mem_cons_self _ _)) (hf p r).1
    · rcases List.mem_cons.mp hq with hq | hq
      · rw [hq]
        exact le_trans (ih (f p r) (f p r) (List.mem_cons_self _ _)) (hf p r).2
      · exact ih (f p r) q (List.mem_cons_of_mem _ hq)

lemma foldl_max_le {α : Type} (key : α → ℚ) (f : α → α → α)
    (hf : ∀ b q, key b ≤ key (f b q) ∧ key q ≤ key (f b q)) :
    ∀ (ps : List α) (p : α) (q : α), q ∈ p :: ps → key q ≤ key (ps.foldl f p) := by
  intro ps
  induction ps with
  | nil =>
    intro p q hq
    rw [List.foldl_nil, List.mem_singleton.mp hq]
  | cons r ps ih =>
    intro p q hq
    rw [List.foldl_cons]
    rcases List.mem_cons.mp hq with hq | hq
    · rw [hq]
      exact le_trans (hf p r).1 (ih (f p r) (f p r) (List.mem_cons_self _ _))
    · rcases List.mem_cons.mp hq with hq | hq
      · rw [hq]
        exact le_trans (hf p r).2 (ih (f p r) (f p r) (List.mem_cons_self _ _))
      · exact ih (f p r) q (List.mem_cons_of_mem _ hq)

lemma hungarianMethod_mem (N : Nat) (cost : Nat → Nat → ℚ) (mx : Bool) :
    hungarianMethod N cost mx ∈ allPerms (List.range N) := by
  unfold hungarianMethod
  rcases h : allPerms (List.range N) with _ | ⟨p, ps⟩
  · exact absurd h (allPerms_ne_nil _)
  · refine foldl_choice_mem _ (fun b q => ?_) ps p
    by_cases hc : (if mx = true then totalCost N cost b < totalCost N cost q
        else totalCost N cost q < totalCost N cost b)
    · exact Or.inr (if_pos hc)
    · exact Or.inl (if_neg hc)

lemma hungarianMethod_perm (N : Nat) (cost : Nat → Nat → ℚ) (mx : Bool) :
    (hungarianMethod N cost mx).Perm (List.range N) :=
  allPerms_perm (hungarianMethod_mem N cost mx)

lemma hungarianMethod_min (N : Nat) (cost : Nat → Nat → ℚ) :
    ∀ q, q.Perm (List.range N) →
      totalCost N cost (hungarianMethod N cost false) ≤ totalCost N cost q := by
  intro q hq
  have hqmem : q ∈ allPerms (List.range N) := allPerms_complete hq
  unfold hungarianMethod
  rcases h : allPerms (List.range N) with _ | ⟨p, ps⟩
  · exact absurd h (allPerms_ne_nil _)
  · rw [h] at hqmem
    refine foldl_min_le (totalCost N cost) _ (fun b r => ?_) ps p q hqmem
    simp only [Bool.false_eq_true, if_false]
    by_cases hc : totalCost N cost r < totalCost N cost b
    · rw [if_pos hc]
      exact ⟨le_of_lt hc, le_refl _⟩
    · rw [if_neg hc]
      exact ⟨le_refl _, le_of_not_lt hc⟩

lemma hungarianMethod_max (N : Nat) (cost : Nat → Nat → ℚ) :
    ∀ q, q.Perm (List.range N) →
      totalCost N cost q ≤ totalCost N cost (hungarianMethod N cost true) := by
  intro q hq
  have hqmem : q ∈ allPerms (List.range N) := allPerms_complete hq
  unfold hungarianMethod
  rcases h : allPerms (List.range N) with _ | ⟨p, ps⟩
  · exact absurd h (allPerms_ne_nil _)
  · rw [h] at hqmem
    refine foldl_max_le (totalCost N cost) _ (fun b r => ?_) ps p q hqmem
    simp only [eq_self_iff_true, if_true]
    by_cases hc : totalCost N cost b < totalCost N cost r
    · rw [if_pos hc]
      exact ⟨le_of_lt hc, le_refl _⟩
    · rw [if_neg hc]
      exact ⟨le_refl _, le_of_not_lt hc⟩

lemma getD_replicate {α : Type} (n j : Nat) (a d : α) :
    (List.replicate n a).getD j d = if j < n then a else d := by
  rw [List.getD_eq_getElem?_getD, List.getElem?_replicate]
  by_cases h : j < n
  · rw [if_pos h, if_pos h]
    rfl
  · rw [if_neg h, if_neg h]
    rfl

lemma set_append_length {α : Type} : ∀ (u v : List α) (c : α),
    (u ++ v).set u.length c = u ++ v.set 0 c := by
  intro u
  induction u with
  | nil => exact fun v c => rfl
  | cons b u ih =>
    intro v c
    simp only [List.cons_append, List.length_cons, List.set_cons_succ, ih]

lemma leftover_singleton {N : Nat} {visited : List Nat} (hnd : visited.Nodup)
    (hlt : ∀ v ∈ visited, v < N) (hlen : visited.length = N - 1) (hN : 1 ≤ N) :
    ∃ x, (List.range N).filter (fun i => decide (i ∉ visited)) = [x] ∧
      x ∉ visited ∧ (visited ++ [x]).Perm (List.range N) := by
  have hfnd : ((List.range N).filter (fun i => decide (i ∉ visited))).Nodup :=
    (List.nodup_range N).filter _
  have hfin : ((List.range N).filter (fun i => decide (i ∉ visited))).toFinset =
      (Finset.range N).filter (fun i => i ∉ visited) := by
    ext a
    simp only [List.mem_toFinset, List.mem_filter, List.mem_range, Finset.mem_filter,
      Finset.mem_range, decide_eq_true_eq]
  have hmemeq : (Finset.range N).filter (fun i => i ∈ visited) = visited.toFinset := by
    ext a
    simp only [Finset.mem_filter, Finset.mem_range, List.mem_toFinset]
    exact ⟨fun h => h.2, fun h => ⟨hlt a h, h⟩⟩
  have hcard : ((Finset.range N).filter (fun i => i ∉ visited)).card = 1 := by
    have hnot := Finset.filter_card_add_filter_neg_card_eq_card
      (s := Finset.range N) (p := fun i => i ∈ visited)
    rw [hmemeq] at hnot
    have hvc : visited.toFinset.card = N - 1 := by
      rw [List.toFinset_card_of_nodup hnd, hlen]
    rw [Finset.card_range, hvc] at hnot
    omega
  have hflen : ((List.range N).filter (fun i => decide (i ∉ visited))).length = 1 := by
    rw [← List.toFinset_card_of_nodup hfnd, hfin, hcard]
  obtain ⟨x, hx⟩ := List.length_eq_one.mp hflen
  have hxmem : x ∈ (List.range N).filter (fun i => decide (i ∉ visited)) := by
    rw [hx]
    exact List.mem_singleton.mpr rfl
  rw [List.mem_filter, List.mem_range, decide_eq_true_eq] at hxmem
  refine ⟨x, hx, hxmem.2, ?_⟩
  have hnd2 : (visited ++ [x]).Nodup := by
    rw [List.nodup_append]
    exact ⟨hnd, List.nodup_singleton x,
      fun a ha hb => hxmem.2 ((List.mem_singleton.mp hb) ▸ ha)⟩
  have hsub : visited ++ [x] ⊆ List.range N := by
    intro a ha
    rcases List.mem_append.mp ha with ha | ha
    · exact List.mem_range.mpr (hlt a ha)
    · rw [List.mem_singleton.mp ha]
      exact List.mem_range.mpr hxmem.1
  refine (hnd2.subperm hsub).perm_of_length_le ?_
  rw [List.length_append, List.length_range, hlen]
  simp only [List.length_singleton]
  omega

lemma singularPredictRound_claim {S : Nat} {m : Nat → Int} {i : Nat} :
    ∀ {dist : List SEntry} {visited : List Nat} {st : MeasState} {iOut : Nat}
      {st1 : MeasState},
      singularPredictRound S m i dist visited st = some (some iOut, st1) →
      iOut ∉ visited ∧ iOut ∈ dist.map (fun e => e.1) := by
  intro dist
  induction dist with
  | nil =>
    intro visited st iOut st1 h
    unfold singularPredictRound at h
    exact absurd h (by simp)
  | cons e rest ih =>
    intro visited st iOut st1 h
    unfold singularPredictRound at h
    by_cases hin : e.1 ∈ visited
    · rw [if_pos hin] at h
      obtain ⟨h1, h2⟩ := ih h
      exact ⟨h1, List.mem_cons_of_mem _ h2⟩
    · rw [if_neg hin] at h
      rcases hme : judgeMeasure m i e.2.1.1 e.2.1.2 st with _ | ⟨v, stA⟩
      · rw [hme] at h
        exact absurd h (by simp)
      · rw [hme] at h
        dsimp only at h
        by_cases hth : v > min 999 (5 * (S : Int))
        · rw [if_pos hth] at h
          simp only [Option.some.injEq, Prod.mk.injEq] at h
          obtain ⟨h1, _⟩ := h
          rw [← h1]
          exact ⟨hin, List.mem_cons_self _ _⟩
        · rw [if_neg hth] at h
          obtain ⟨h1, h2⟩ := ih h
          exact ⟨h1, List.mem_cons_of_mem _ h2⟩

lemma ss2ProbeRound_claim {S : Nat} {m : Nat → Int} {i : Nat} :
    ∀ {entries : List (Nat × S2Entry)} {visited : List Nat} {st : MeasState}
      {iOut : Nat} {st1 : MeasState},
      ss2ProbeRound S m i entries visited st = some (some iOut, st1) →
      iOut ∉ visited ∧ iOut ∈ entries.map (fun e => e.1) := by
  intro entries
  induction entries with
  | nil =>
    intro visited st iOut st1 h
    unfold ss2ProbeRound at h
    exact absurd h (by simp)
  | cons e rest ih =>
    intro visited st iOut st1 h
    unfold ss2ProbeRound at h
    by_cases hin : e.1 ∈ visited
    · rw [if_pos hin] at h
      obtain ⟨h1, h2⟩ := ih h
      exact ⟨h1, List.mem_cons_of_mem _ h2⟩
    · rw [if_neg hin] at h
      rcases hme : judgeMeasure m i e.2.1.1 e.2.1.2 st with _ | ⟨v1, stA⟩
      · rw [hme] at h
        exact absurd h (by simp)
      · rw [hme] at h
        dsimp only at h
        rcases hme2 : judgeMeasure m i e.2.2.1 e.2.2.2 stA with _ | ⟨v2, stB⟩
        · rw [hme2] at h
          exact absurd h (by simp)
        · rw [hme2] at h
          dsimp only at h
          by_cases hth : 10 * (v1 + v2) > 53 * (S : Int)
          · rw [if_pos hth] at h
            simp only [Option.some.injEq, Prod.mk.injEq] at h
            obtain ⟨h1, _⟩ := h
            rw [← h1]
            exact ⟨hin, List.mem_cons_self _ _⟩
          · rw [if_neg hth] at h
            obtain ⟨h1, h2⟩ := ih h
            exact ⟨h1, List.mem_cons_of_mem _ h2⟩


lemma singularRounds_length_le {S : Nat} {dist : List SEntry} {m : Nat → Int} :
    ∀ {is : List Nat} {est visited : List Nat} {st : MeasState}
      {r : List Nat × List Nat × MeasState},
      singularRounds S dist m is (est, visited, st) = some r →
      r.2.1.length ≤ visited.length + is.length := by
  intro is
  induction is with
  | nil =>
    intro est visited st r h
    unfold singularRounds at h
    simp only [Option.some.injEq] at h
    rw [← h]
    simp
  | cons i is ih =>
    intro est visited st r h
    unfold singularRounds at h
    rcases hr : singularPredictRound S m i dist visited st with _ | ⟨oc, st1⟩
    · rw [hr] at h
      exact absurd h (by simp)
    · rw [hr] at h
      rcases oc with _ | c
      · have := ih h
        simp only [List.length_cons]
        omega
      · have := ih h
        rw [List.length_append, List.length_singleton] at this
        simp only [List.length_cons]
        omega

lemma ss2Rounds_length_le {S : Nat} {dist : List S2Entry} {m : Nat → Int} :
    ∀ {is : List Nat} {est visited : List Nat} {st : MeasState}
      {r : List Nat × List Nat × MeasState},
      ss2Rounds S dist m is (est, visited, st) = some r →
      r.2.1.length ≤ visited.length + is.length := by
  intro is
  induction is with
  | nil =>
    intro est visited st r h
    unfold ss2Rounds at h
    simp only [Option.some.injEq] at h
    rw [← h]
    simp
  | cons i is ih =>
    intro est visited st r h
    unfold ss2Rounds at h
    rcases hr : ss2ProbeRound S m i dist.enum visited st with _ | ⟨oc, st1⟩
    · rw [hr] at h
      exact absurd h (by simp)
    · rw [hr] at h
      rcases oc with _ | c
      · have := ih h
        simp only [List.length_cons]
        omega
      · have := ih h
        rw [List.length_append, List.length_singleton] at this
        simp only [List.length_cons]
        omega

lemma singularRounds_complete {S N : Nat} {dist : List SEntry} {m : Nat → Int}
    (hix : ∀ x ∈ dist.map (fun e => e.1), x < N) :
    ∀ (len a : Nat) (visited : List Nat) (st : MeasState)
      (r : List Nat × List Nat × MeasState),
      visited.length = a → visited.Nodup → (∀ v ∈ visited, v < N) → a + len ≤ N →
      singularRounds S dist m (List.range' a len)
        (visited ++ List.replicate (N - a) 0, visited, st) = some r →
      r.2.1.length = a + len →
      r.2.1.Nodup ∧ (∀ v ∈ r.2.1, v < N) ∧
        r.1 = r.2.1 ++ List.replicate (N - (a + len)) 0 := by
  intro len
  induction len with
  | zero =>
    intro a visited st r hlen hnd hlt _ h hrlen
    rw [List.range'_zero] at h
    unfold singularRounds at h
    simp only [Option.some.injEq] at h
    rw [← h]
    exact ⟨hnd, hlt, rfl⟩
  | succ len ih =>
    intro a visited st r hlen hnd hlt hbound h hrlen
    rw [List.range'_succ] at h
    unfold singularRounds at h
    rcases hr : singularPredictRound S m a dist visited st with _ | ⟨oc, st1⟩
    · rw [hr] at h
      exact absurd h (by simp)
    · rw [hr] at h
      rcases oc with _ | c
      · have := singularRounds_length_le h
        rw [List.length_range'] at this
        omega
      · obtain ⟨hcv, hcm⟩ := singularPredictRound_claim hr
        have hcN : c < N := hix c hcm
        have haN : a < N := by omega
        have hset : (visited ++ List.replicate (N - a) 0).set a c =
            (visited ++ [c]) ++ List.replicate (N - (a + 1)) 0 := by
          have h1 := set_append_length visited (List.replicate (N - a) 0) c
          rw [hlen] at h1
          rw [h1]
          have hrep : N - a = (N - (a + 1)) + 1 := by omega
          rw [hrep]
          simp only [List.replicate_succ, List.set_cons_zero, List.append_assoc,
            List.singleton_append]
        replace h : singularRounds S dist m (List.range' (a + 1) len)
            ((visited ++ List.replicate (N - a) 0).set a c, visited ++ [c], st1) =
              some r := h
        rw [hset] at h
        have hres := ih (a + 1) (visited ++ [c]) st1 r
          (by rw [List.length_append, List.length_singleton, hlen])
          (by
            rw [List.nodup_append]
            exact ⟨hnd, List.nodup_singleton c,
              fun x hx hb => hcv ((List.mem_singleton.mp hb) ▸ hx)⟩)
          (by
            intro v hv
            rcases List.mem_append.mp hv with hv | hv
            · exact hlt v hv
            · rw [List.mem_singleton.mp hv]
              exact hcN)
          (by omega) h (by omega)
        refine ⟨hres.1, hres.2.1, ?_⟩
        have harith : N - (a + 1 + len) = N - (a + (len + 1)) := by omega
        rw [hres.2.2, harith]

lemma ss2Rounds_complete {S N : Nat} {dist : List S2Entry} {m : Nat → Int}
    (hix : ∀ x ∈ dist.enum.map (fun e => e.1), x < N) :
    ∀ (len a : Nat) (visited : List Nat) (st : MeasState)
      (r : List Nat × List Nat × MeasState),
      visited.length = a → visited.Nodup → (∀ v ∈ visited, v < N) → a + len ≤ N →
      ss2Rounds S dist m (List.range' a len)
        (visited ++ List.replicate (N - a) 0, visited, st) = some r →
      r.2.1.length = a + len →
      r.2.1.Nodup ∧ (∀ v ∈ r.2.1, v < N) ∧
        r.1 = r.2.1 ++ List.replicate (N - (a + len)) 0 := by
  intro len
  induction len with
  | zero =>
    intro a visited st r hlen hnd hlt _ h hrlen
    rw [List.range'_zero] at h
    unfold ss2Rounds at h
    simp only [Option.some.injEq] at h
    rw [← h]
    exact ⟨hnd, hlt, rfl⟩
  | succ len ih =>
    intro a visited st r hlen hnd hlt hbound h hrlen
    rw [List.range'_succ] at h
    unfold ss2Rounds at h
    rcases hr : ss2ProbeRound S m a dist.enum visited st with _ | ⟨oc, st1⟩
    · rw [hr] at h
      exact absurd h (by simp)
    · rw [hr] at h
      rcases oc with _ | c
      · have := ss2Rounds_length_le h
        rw [List.length_range'] at this
        omega
      · obtain ⟨hcv, hcm⟩ := ss2ProbeRound_claim hr
        have hcN : c < N := hix c hcm
        have haN : a < N := by omega
        have hset : (visited ++ List.replicate (N - a) 0).set a c =
            (visited ++ [c]) ++ List.replicate (N - (a + 1)) 0 := by
          have h1 := set_append_length visited (List.replicate (N - a) 0) c
          rw [hlen] at h1
          rw [h1]
          have hrep : N - a = (N - (a + 1)) + 1 := by omega
          rw [hrep]
          simp only [List.replicate_succ, List.set_cons_zero, List.append_assoc,
            List.singleton_append]
        replace h : ss2Rounds S dist m (List.range' (a + 1) len)
            ((visited ++ List.replicate (N - a) 0).set a c, visited ++ [c], st1) =
              some r := h
        rw [hset] at h
        have hres := ih (a + 1) (visited ++ [c]) st1 r
          (by rw [List.length_append, List.length_singleton, hlen])
          (by
            rw [List.nodup_append]
            exact ⟨hnd, List.nodup_singleton c,
              fun x hx hb => hcv ((List.mem_singleton.mp hb) ▸ hx)⟩)
          (by
            intro v hv
            rcases List.mem_append.mp hv with hv | hv
            · exact hlt v hv
            · rw [List.mem_singleton.mp hv]
              exact hcN)
          (by omega) h (by omega)
        refine ⟨hres.1, hres.2.1, ?_⟩
        have harith : N - (a + 1 + len) = N - (a + (len + 1)) := by omega
        rw [hres.2.2, harith]


/-- Counterexample to claim C2 as stated: when no probed reading ever exceeds
the threshold, the greedy decoder of `SingularSolver._predict` claims nothing,
leaves every estimate at its initialiser `0`, and force-assigns `0` again, so
the emitted list is not a bijection.  Here `N = 2` with all replies `0`. -/
theorem claim_c2_counterexample :
    (singularPredict 2 10 (singularTemperatureRun 4 2 10 [⟨0, 0⟩, ⟨0, 1⟩]).2
        (fun _ => 0)).map Prod.fst = some [0, 0] ∧
      ¬([0, 0] : List Nat).Perm (List.range 2) := by
  decide

/-- Claim C2, amended: the optimal-assignment decoders
(`OnePointSolver._predict`, `AroundSolver._predict`, and the `N ≤ 71` branch
of `SingularSolver2._predict`) always emit a permutation of `0..N-1`; the
greedy threshold decoders emit one exactly when each of their `N-1` rounds
claims a candidate (the claimed-candidate list reaches length `N-1`), in which
case the single remaining unclaimed candidate is force-assigned to the final
hidden index. -/
theorem claim_c2_bijection :
    (∀ (N : Nat) (temperature : Grid) (landing_pos : List Pos) (m : Nat → Int)
      (est : List Nat) (st : MeasState),
      onePointPredict N temperature landing_pos m = some (est, st) →
        est.Perm (List.range N)) ∧
      (∀ (N around : Nat) (direction : List (Int × Int)) (landing_pos : List Pos)
        (vector : List (List Int)) (m : Nat → Int) (est : List Nat) (st : MeasState),
        aroundPredict N around direction landing_pos vector m = some (est, st) →
          est.Perm (List.range N)) ∧
      (∀ (N S : Nat) (dist : List S2Entry) (m : Nat → Int) (est : List Nat)
        (st : MeasState), N ≤ 71 →
        singularSolver2Predict N S dist m = some (est, st) → est.Perm (List.range N)) ∧
      (∀ (N S : Nat) (dist : List SEntry) (m : Nat → Int)
        (r : List Nat × List Nat × MeasState),
        (∀ x ∈ dist.map (fun e => e.1), x < N) → 1 ≤ N →
        singularRounds S dist m (List.range (N - 1))
          (List.replicate N 0, [], ⟨0, []⟩) = some r →
        r.2.1.length = N - 1 →
        singularPredict N S dist m =
          some (r.1.set (N - 1)
            (((List.range N).filter (fun i => decide (i ∉ r.2.1))).headD 0), r.2.2) ∧
        (r.1.set (N - 1)
          (((List.range N).filter (fun i => decide (i ∉ r.2.1))).headD 0)).Perm
            (List.range N)) ∧
      (∀ (N S : Nat) (dist : List S2Entry) (m : Nat → Int)
        (r : List Nat × List Nat × MeasState),
        dist.length = N → 1 ≤ N →
        ss2Rounds S dist m (List.range (N - 1))
          (List.replicate N 0, [], ⟨0, []⟩) = some r →
        r.2.1.length = N - 1 →
        (r.1.set (N - 1)
          (((List.range N).filter (fun i => decide (i ∉ r.2.1))).headD 0)).Perm
            (List.range N)) ∧
      (∀ (N S : Nat) (dist : List S2Entry) (m : Nat → Int)
        (r : List Nat × List Nat × MeasState), 71 < N →
        ss2Rounds S dist m (List.range (N - 1))
          (List.replicate N 0, [], ⟨0, []⟩) = some r →
        singularSolver2Predict N S dist m =
          some (r.1.set (N - 1)
            (((List.range N).filter (fun i => decide (i ∉ r.2.1))).headD 0), r.2.2)) := by
  have hgreedy : ∀ (N : Nat) (r : List Nat × List Nat × MeasState),
      1 ≤ N → r.2.1.Nodup → (∀ v ∈ r.2.1, v < N) →
      r.1 = r.2.1 ++ List.replicate (N - (0 + (N - 1))) 0 → r.2.1.length = N - 1 →
      (r.1.set (N - 1)
        (((List.range N).filter (fun i => decide (i ∉ r.2.1))).headD 0)).Perm
          (List.range N) := by
    intro N r hN hnd hlt hshape hrlen
    obtain ⟨x, hfil, hxnv, hperm⟩ := leftover_singleton hnd hlt hrlen hN
    have hone : N - (0 + (N - 1)) = 1 := by omega
    rw [hone, List.replicate_one] at hshape
    rw [hshape, hfil]
    simp only [List.headD_cons]
    have hsetl := set_append_length r.2.1 [(0 : Nat)] x
    rw [hrlen] at hsetl
    rw [hsetl]
    simp only [List.set_cons_zero]
    exact hperm
  refine ⟨?_, ?_, ?_, ?_, ?_, ?_⟩
  · intro N temperature landing_pos m est st h
    unfold onePointPredict at h
    obtain ⟨Mst, _, heq⟩ := Option.map_eq_some'.mp h
    have h1 : hungarianMethod N (matrixCost Mst.1) false = est := congrArg Prod.fst heq
    rw [← h1]
    exact hungarianMethod_perm N (matrixCost Mst.1) false
  · intro N around direction landing_pos vector m est st h
    unfold aroundPredict at h
    obtain ⟨Mst, _, heq⟩ := Option.map_eq_some'.mp h
    have h1 : hungarianMethod N (matrixCost Mst.1) false = est := congrArg Prod.fst heq
    rw [← h1]
    exact hungarianMethod_perm N (matrixCost Mst.1) false
  · intro N S dist m est st hN71 h
    unfold singularSolver2Predict at h
    rw [if_pos hN71] at h
    obtain ⟨Mst, _, heq⟩ := Option.map_eq_some'.mp h
    have h1 : hungarianMethod N (matrixCostInt Mst.1) true = est := congrArg Prod.fst heq
    rw [← h1]
    exact hungarianMethod_perm N (matrixCostInt Mst.1) true
  · intro N S dist m r hix hN hrounds hrlen
    constructor
    · unfold singularPredict
      rw [hrounds]
      rfl
    · rw [List.range_eq_range'] at hrounds
      have hres := singularRounds_complete hix (N - 1) 0 [] ⟨0, []⟩ r rfl
        List.nodup_nil (by simp) (by omega) hrounds (by omega)
      exact hgreedy N r hN hres.1 hres.2.1 hres.2.2 hrlen
  · intro N S dist m r hdlen hN hrounds hrlen
    have hix : ∀ x ∈ dist.enum.map (fun e => e.1), x < N := by
      intro x hx
      obtain ⟨e, he, rfl⟩ := List.mem_map.mp hx
      obtain ⟨i, entry⟩ := e
      have := (List.mem_enum he).1
      omega
    rw [List.range_eq_range'] at hrounds
    have hres := ss2Rounds_complete hix (N - 1) 0 [] ⟨0, []⟩ r rfl
      List.nodup_nil (by simp) (by omega) hrounds (by omega)
    exact hgreedy N r hN hres.1 hres.2.1 hres.2.2 hrlen
  · intro N S dist m r hN71 hrounds
    unfold singularSolver2Predict
    rw [if_neg (by omega), hrounds]
    rfl


/-- Concrete instances of the amended claim C2 for each decoder. -/
theorem claim_c2_witness :
    ([0] : List Nat).Perm (List.range 1) ∧
      ([0] : List Nat).Perm (List.range 1) ∧
      ([0] : List Nat).Perm (List.range 1) ∧
      singularPredict 1 0 [] (fun _ => 5) =
        some (([0] : List Nat).set 0
          (((List.range 1).filter (fun i => decide (i ∉ ([] : List Nat)))).headD 0),
          ⟨0, []⟩) ∧
      (([0] : List Nat).set 0
        (((List.range 1).filter (fun i => decide (i ∉ ([] : List Nat)))).headD 0)).Perm
          (List.range 1) ∧
      ((List.replicate 1 0 : List Nat).set 0
        (((List.range 1).filter
          (fun i => decide (i ∉ ([] : List Nat)))).headD 0)).Perm (List.range 1) ∧
      singularSolver2Predict 72 169 [] (fun _ => 5) =
        some ((List.replicate 72 0 : List Nat).set 71
          (((List.range 72).filter (fun i => decide (i ∉ ([] : List Nat)))).headD 0),
          ⟨0, []⟩) :=
  ⟨claim_c2_bijection.1 1 [[0]] [] (fun _ => 5) [0] ⟨0, []⟩ (by decide),
    claim_c2_bijection.2.1 1 3 [] [] [] (fun _ => 5) [0] ⟨0, []⟩ (by decide),
    claim_c2_bijection.2.2.1 1 0 [] (fun _ => 5) [0] ⟨0, []⟩ (by decide) (by decide),
    (claim_c2_bijection.2.2.2.1 1 0 [] (fun _ => 5) ([0], [], ⟨0, []⟩)
      (by decide) (by decide) (by decide) (by decide)).1,
    (claim_c2_bijection.2.2.2.1 1 0 [] (fun _ => 5) ([0], [], ⟨0, []⟩)
      (by decide) (by decide) (by decide) (by decide)).2,
    claim_c2_bijection.2.2.2.2.1 1 0 [((0, 0), (0, 0))] (fun _ => 5)
      (List.replicate 1 0, [], ⟨0, []⟩) (by decide) (by decide) (by decide) (by decide),
    claim_c2_bijection.2.2.2.2.2 72 169 [] (fun _ => 5)
      (List.replicate 72 0, [], ⟨0, []⟩) (by decide) (by decide)⟩


lemma judgeMeasure_log {m : Nat → Int} {i : Nat} {y x : Int} {st : MeasState}
    {v : Int} {st1 : MeasState} (h : judgeMeasure m i y x st = some (v, st1)) :
    st1.log = st.log ++ [(i, y, x)] := by
  unfold judgeMeasure at h
  by_cases hv : m st.cnt = -1
  · rw [if_pos hv] at h
    exact absurd h (by simp)
  · rw [if_neg hv] at h
    simp only [Option.some.injEq, Prod.mk.injEq] at h
    rw [← h.2]

lemma measureSum_log {m : Nat → Int} {i : Nat} {y x : Int} :
    ∀ {k : Nat} {st : MeasState} {s : Int} {st1 : MeasState},
      measureSum m i y x k st = some (s, st1) →
      ∀ q ∈ st1.log, q ∈ st.log ∨ q = (i, y, x) := by
  intro k
  induction k with
  | zero =>
    intro st s st1 h q hq
    unfold measureSum at h
    simp only [Option.some.injEq, Prod.mk.injEq] at h
    rw [← h.2] at hq
    exact Or.inl hq
  | succ k ih =>
    intro st s st1 h q hq
    unfold measureSum at h
    rcases hm : judgeMeasure m i y x st with _ | ⟨v, stA⟩
    · rw [hm] at h
      exact absurd h (by simp)
    · rw [hm] at h
      dsimp only at h
      rcases hs : measureSum m i y x k stA with _ | ⟨s2, stB⟩
      · rw [hs] at h
        exact absurd h (by simp)
      · rw [hs] at h
        simp only [Option.some.injEq, Prod.mk.injEq] at h
        rw [← h.2] at hq
        rcases ih hs q hq with hq2 | hq2
        · rw [judgeMeasure_log hm] at hq2
          rcases List.mem_append.mp hq2 with hq3 | hq3
          · exact Or.inl hq3
          · exact Or.inr (List.mem_singleton.mp hq3)
        · exact Or.inr hq2

lemma ss2ScoreRow_log {m : Nat → Int} {i : Nat} :
    ∀ {entries : List (Nat × S2Entry)} {row row1 : List Int} {st st1 : MeasState},
      ss2ScoreRow m i entries row st = some (row1, st1) →
      ∀ q ∈ st1.log, q ∈ st.log ∨ q.1 = i := by
  intro entries
  induction entries with
  | nil =>
    intro row row1 st st1 h q hq
    unfold ss2ScoreRow at h
    simp only [Option.some.injEq, Prod.mk.injEq] at h
    rw [← h.2] at hq
    exact Or.inl hq
  | cons e rest ih =>
    intro row row1 st st1 h q hq
    unfold ss2ScoreRow at h
    rcases hm : judgeMeasure m i e.2.1.1 e.2.1.2 st with _ | ⟨v1, stA⟩
    · rw [hm] at h
      exact absurd h (by simp)
    · rw [hm] at h
      dsimp only at h
      rcases hm2 : judgeMeasure m i e.2.2.1 e.2.2.2 stA with _ | ⟨v2, stB⟩
      · rw [hm2] at h
        exact absurd h (by simp)
      · rw [hm2] at h
        dsimp only at h
        rcases ih h q hq with hq2 | hq2
        · rw [judgeMeasure_log hm2, judgeMeasure_log hm] at hq2
          rcases List.mem_append.mp hq2 with hq3 | hq3
          · rcases List.mem_append.mp hq3 with hq4 | hq4
            · exact Or.inl hq4
            · rw [List.mem_singleton.mp hq4]
              exact Or.inr rfl
          · rw [List.mem_singleton.mp hq3]
            exact Or.inr rfl
        · exact Or.inr hq2

lemma totalCost_eq_partial {N : Nat} {cost : Nat → Nat → ℚ} (hN : 1 ≤ N)
    (hzero : ∀ j, cost (N - 1) j = 0) (p : List Nat) :
    totalCost N cost p = partialCost N cost p := by
  obtain ⟨M, rfl⟩ : ∃ M, N = M + 1 := ⟨N - 1, by omega⟩
  unfold totalCost partialCost
  rw [Finset.sum_range_succ]
  simp only [Nat.add_sub_cancel] at hzero ⊢
  rw [hzero]
  ring

lemma onePointPredictAux_facts {N : Nat} {temperature : Grid}
    {landing_pos : List Pos} {m : Nat → Int} {M : List (List ℚ)} {st : MeasState}
    (hN : 1 ≤ N) (h : onePointPredictAux N temperature landing_pos m = some (M, st)) :
    M.getD (N - 1) [] = List.replicate N (0 : ℚ) ∧ ∀ q ∈ st.log, q.1 < N - 1 := by
  unfold onePointPredictAux at h
  refine @foldl_preserve (Option (List (List ℚ) × MeasState)) Nat
    (fun acc => ∀ M2 st2, acc = some (M2, st2) →
      M2.getD (N - 1) [] = List.replicate N (0 : ℚ) ∧ ∀ q ∈ st2.log, q.1 < N - 1)
    (fun acc i_in =>
      match acc with
      | none => none
      | some (M, st) =>
        match measureSum m i_in 0 0 5 st with
        | none => none
        | some (s, st1) =>
          let measured_value : ℚ := (s : ℚ) / 5
          some (M.set i_in (onePointRow temperature landing_pos measured_value
            (M.getD i_in [])), st1))
    (List.range (N - 1))
    (some (List.replicate N (List.replicate N (0 : ℚ)), ⟨0, []⟩))
    ?_ ?_ M st h
  · intro acc i_in hmem hP
    rcases acc with _ | ⟨M2, st2⟩
    · intro M3 st3 h3
      exact absurd h3 (by simp)
    · obtain ⟨hrow, hlog⟩ := hP M2 st2 rfl
      rcases hms : measureSum m i_in 0 0 5 st2 with _ | ⟨s, stA⟩
      · intro M3 st3 h3
        dsimp only at h3
        rw [hms] at h3
        exact absurd h3 (by simp)
      · intro M3 st3 h3
        dsimp only at h3
        rw [hms] at h3
        dsimp only at h3
        simp only [Option.some.injEq, Prod.mk.injEq] at h3
        have hii : i_in < N - 1 := List.mem_range.mp hmem
        constructor
        · rw [← h3.1, getD_set_ne (by omega), hrow]
        · intro q hq
          rw [← h3.2] at hq
          rcases measureSum_log hms q hq with hq2 | hq2
          · exact hlog q hq2
          · rw [hq2]
            exact hii
  · intro M2 st2 h2
    simp only [Option.some.injEq, Prod.mk.injEq] at h2
    constructor
    · rw [← h2.1, getD_replicate, if_pos (by omega)]
    · intro q hq
      rw [← h2.2] at hq
      exact absurd hq (List.not_mem_nil q)

lemma ss2BuildMatrix_facts {N : Nat} {dist : List S2Entry} {m : Nat → Int}
    {M : List (List Int)} {st : MeasState} (hN : 1 ≤ N)
    (h : ss2BuildMatrix N dist m = some (M, st)) :
    M.getD (N - 1) [] = List.replicate N (0 : Int) ∧ ∀ q ∈ st.log, q.1 < N - 1 := by
  unfold ss2BuildMatrix at h
  refine @foldl_preserve (Option (List (List Int) × MeasState)) Nat
    (fun acc => ∀ M2 st2, acc = some (M2, st2) →
      M2.getD (N - 1) [] = List.replicate N (0 : Int) ∧ ∀ q ∈ st2.log, q.1 < N - 1)
    (fun acc i_in =>
      match acc with
      | none => none
      | some (M, st) =>
        match ss2ScoreRow m i_in dist.enum (M.getD i_in []) st with
        | none => none
        | some (row, st1) => some (M.set i_in row, st1))
    (List.range (N - 1))
    (some (List.replicate N (List.replicate N (0 : Int)), ⟨0, []⟩))
    ?_ ?_ M st h
  · intro acc i_in hmem hP
    rcases acc with _ | ⟨M2, st2⟩
    · intro M3 st3 h3
      exact absurd h3 (by simp)
    · obtain ⟨hrow, hlog⟩ := hP M2 st2 rfl
      rcases hms : ss2ScoreRow m i_in dist.enum (M2.getD i_in []) st2 with _ | ⟨row, stA⟩
      · intro M3 st3 h3
        dsimp only at h3
        rw [hms] at h3
        exact absurd h3 (by simp)
      · intro M3 st3 h3
        dsimp only at h3
        rw [hms] at h3
        dsimp only at h3
        simp only [Option.some.injEq, Prod.mk.injEq] at h3
        have hii : i_in < N - 1 := List.mem_range.mp hmem
        constructor
        · rw [← h3.1, getD_set_ne (by omega), hrow]
        · intro q hq
          rw [← h3.2] at hq
          rcases ss2ScoreRow_log hms q hq with hq2 | hq2
          · exact hlog q hq2
          · rw [hq2]
            exact hii
  · intro M2 st2 h2
    simp only [Option.some.injEq, Prod.mk.injEq] at h2
    constructor
    · rw [← h2.1, getD_replicate, if_pos (by omega)]
    · intro q hq
      rw [← h2.2] at hq
      exact absurd hq (List.not_mem_nil q)

lemma filter_not_mem_take {N : Nat} {est : List Nat} (hperm : est.Perm (List.range N))
    (hN : 1 ≤ N) :
    (List.range N).filter (fun c => decide (c ∉ est.take (N - 1))) =
      [est.getD (N - 1) 0] := by
  have hlen : est.length = N := by rw [hperm.length_eq, List.length_range]
  have hnd : est.Nodup := hperm.nodup_iff.mpr (List.nodup_range N)
  have htnd : (est.take (N - 1)).Nodup := hnd.sublist (List.take_sublist (N - 1) est)
  have htlen : (est.take (N - 1)).length = N - 1 := by
    rw [List.length_take, hlen]
    omega
  have htlt : ∀ v ∈ est.take (N - 1), v < N := fun v hv =>
    List.mem_range.mp (hperm.subset (List.mem_of_mem_take hv))
  obtain ⟨x, hfil, hxnm, hpx⟩ := leftover_singleton htnd htlt htlen hN
  have hN1 : N - 1 < est.length := by omega
  have hgetd : est.getD (N - 1) 0 = est[N - 1] := by
    rw [List.getD_eq_getElem?_getD, List.getElem?_eq_getElem hN1]
    rfl
  have hdrop : est.drop (N - 1) = [est.getD (N - 1) 0] := by
    rw [List.drop_eq_getElem_cons hN1, hgetd]
    have : N - 1 + 1 = N := by omega
    rw [this, List.drop_eq_nil_of_le (by omega)]
  have hest : est = est.take (N - 1) ++ [est.getD (N - 1) 0] := by
    conv_lhs => rw [← List.take_append_drop (N - 1) est]
    rw [hdrop]
  have hperm2 : (est.take (N - 1) ++ [x]).Perm
      (est.take (N - 1) ++ [est.getD (N - 1) 0]) := by
    refine hpx.trans ?_
    rw [← hest]
    exact hperm.symm
  have hxy : x = est.getD (N - 1) 0 := by
    have hcnt := hperm2.count_eq x
    rw [List.count_append, List.count_append, List.count_singleton',
      List.count_singleton', if_pos rfl] at hcnt
    by_cases hxe : x = est.getD (N - 1) 0
    · exact hxe
    · rw [if_neg (fun hc => hxe hc.symm)] at hcnt
      omega
  rw [hfil, hxy]

/-- Claim C9: in the Variant A decoder and the Variant C optimal-assignment
branch, measurements are issued only for hidden indices `0..N-2`: every logged
query carries a hidden index below `N-1`, the score-matrix row `N-1` stays all
zeros, the returned matching optimises the cost restricted to the other rows
(minimum for Variant A, maximum for Variant C), and index `N-1` receives the
single candidate column the other rows leave over. -/
theorem claim_c9_unmeasured_last_row :
    (∀ (N : Nat) (temperature : Grid) (landing_pos : List Pos) (m : Nat → Int)
      (M : List (List ℚ)) (st : MeasState), 1 ≤ N →
      onePointPredictAux N temperature landing_pos m = some (M, st) →
      M.getD (N - 1) [] = List.replicate N (0 : ℚ) ∧
        (∀ q ∈ st.log, q.1 < N - 1) ∧
        (∀ p, p.Perm (List.range N) →
          partialCost N (matrixCost M) (hungarianMethod N (matrixCost M) false) ≤
            partialCost N (matrixCost M) p) ∧
        (List.range N).filter
            (fun c => decide (c ∉ (hungarianMethod N (matrixCost M) false).take (N - 1))) =
          [(hungarianMethod N (matrixCost M) false).getD (N - 1) 0]) ∧
      (∀ (N : Nat) (dist : List S2Entry) (m : Nat → Int) (M : List (List Int))
        (st : MeasState), 1 ≤ N →
        ss2BuildMatrix N dist m = some (M, st) →
        M.getD (N - 1) [] = List.replicate N (0 : Int) ∧
          (∀ q ∈ st.log, q.1 < N - 1) ∧
          (∀ p, p.Perm (List.range N) →
            partialCost N (matrixCostInt M) p ≤
              partialCost N (matrixCostInt M) (hungarianMethod N (matrixCostInt M) true)) ∧
          (List.range N).filter
              (fun c => decide (c ∉ (hungarianMethod N (matrixCostInt M) true).take (N - 1))) =
            [(hungarianMethod N (matrixCostInt M) true).getD (N - 1) 0]) := by
  constructor
  · intro N temperature landing_pos m M st hN h
    obtain ⟨hrow, hlog⟩ := onePointPredictAux_facts hN h
    have hzero : ∀ j, matrixCost M (N - 1) j = 0 := by
      intro j
      unfold matrixCost
      rw [hrow, getD_replicate]
      by_cases hj : j < N
      · rw [if_pos hj]
      · rw [if_neg hj]
    have htp := totalCost_eq_partial hN hzero
    refine ⟨hrow, hlog, ?_, ?_⟩
    · intro p hp
      rw [← htp, ← htp]
      exact hungarianMethod_min N (matrixCost M) p hp
    · exact filter_not_mem_take (hungarianMethod_perm N (matrixCost M) false) hN
  · intro N dist m M st hN h
    obtain ⟨hrow, hlog⟩ := ss2BuildMatrix_facts hN h
    have hzero : ∀ j, matrixCostInt M (N - 1) j = 0 := by
      intro j
      unfold matrixCostInt
      rw [hrow, getD_replicate]
      by_cases hj : j < N
      · rw [if_pos hj]
        norm_num
      · rw [if_neg hj]
        norm_num
    have htp := totalCost_eq_partial hN hzero
    refine ⟨hrow, hlog, ?_, ?_⟩
    · intro p hp
      rw [← htp, ← htp]
      exact hungarianMethod_max N (matrixCostInt M) p hp
    · exact filter_not_mem_take (hungarianMethod_perm N (matrixCostInt M) true) hN


/-- Concrete instances of claim C9 at `N = 1` (no measurement round at all:
the single row stays zero, the log is empty, and the matching is trivially
optimal on the measured rows). -/
theorem claim_c9_witness :
    (List.replicate 1 (List.replicate 1 (0 : ℚ))).getD 0 [] = List.replicate 1 (0 : ℚ) ∧
      partialCost 1 (matrixCost (List.replicate 1 (List.replicate 1 (0 : ℚ))))
          (hungarianMethod 1 (matrixCost (List.replicate 1 (List.replicate 1 (0 : ℚ)))) false) ≤
        partialCost 1 (matrixCost (List.replicate 1 (List.replicate 1 (0 : ℚ)))) [0] ∧
      (List.range 1).filter (fun c => decide (c ∉
          (hungarianMethod 1 (matrixCost (List.replicate 1 (List.replicate 1 (0 : ℚ))))
            false).take 0)) =
        [(hungarianMethod 1 (matrixCost (List.replicate 1 (List.replicate 1 (0 : ℚ))))
          false).getD 0 0] ∧
      (List.replicate 1 (List.replicate 1 (0 : Int))).getD 0 [] =
        List.replicate 1 (0 : Int) ∧
      partialCost 1 (matrixCostInt (List.replicate 1 (List.replicate 1 (0 : Int)))) [0] ≤
        partialCost 1 (matrixCostInt (List.replicate 1 (List.replicate 1 (0 : Int))))
          (hungarianMethod 1 (matrixCostInt (List.replicate 1 (List.replicate 1 (0 : Int))))
            true) := by
  have h1 := claim_c9_unmeasured_last_row.1 1 [[0]] [] (fun _ => 0)
    (List.replicate 1 (List.replicate 1 (0 : ℚ))) ⟨0, []⟩ (by decide) rfl
  have h2 := claim_c9_unmeasured_last_row.2 1 [] (fun _ => 0)
    (List.replicate 1 (List.replicate 1 (0 : Int))) ⟨0, []⟩ (by decide) rfl
  exact ⟨h1.1, h1.2.2.1 [0] (by decide), h1.2.2.2, h2.1, h2.2.2.1 [0] (by decide)⟩


/-- Counterexample to claim C4 as stated: the two-hotspot Variant C threshold
decoder probes candidates in `landing_pos` enumeration order, not in ascending
hotspot distance.  In this 72-site episode (`S = 169`, threshold branch since
`N = 72 > 71`) every summed reading exceeds the threshold, and hidden index 0
is irrevocably assigned candidate 0 even though candidate 1 is strictly closer
to both hotspots and its summed reading would also have exceeded the
threshold. -/
theorem claim_c4_counterexample :
    (singularSolver2Predict 72 169 c4Dist (fun _ => 10000)).map
        (fun r => r.1.getD 0 99) = some 0 ∧
      pairDist (c4Dist.getD 1 ((0, 0), (0, 0))) <
        pairDist (c4Dist.getD 0 ((0, 0), (0, 0))) ∧
      10 * ((10000 : Int) + 10000) > 53 * (169 : Int) := by
  decide


lemma singularPredictRound_scan {S : Nat} {m : Nat → Int} {i : Nat} :
    ∀ (dist : List SEntry) (visited : List Nat) (st : MeasState)
      (pre post : List SEntry) (e : SEntry),
      dist.filter (fun e2 => decide (e2.1 ∉ visited)) = pre ++ e :: post →
      (∀ k, k < pre.length → m (st.cnt + k) ≠ -1 ∧
        m (st.cnt + k) ≤ min 999 (5 * (S : Int))) →
      m (st.cnt + pre.length) > min 999 (5 * (S : Int)) →
      singularPredictRound S m i dist visited st =
        some (some e.1, ⟨st.cnt + pre.length + 1,
          st.log ++ (pre ++ [e]).map (fun e2 => (i, e2.2.1.1, e2.2.1.2))⟩) := by
  have hthr : (0 : Int) ≤ min 999 (5 * (S : Int)) :=
    le_min (by norm_num) (by positivity)
  intro dist
  induction dist with
  | nil =>
    intro visited st pre post e hfil hpre hclaim
    rw [List.filter_nil] at hfil
    exact absurd hfil (by simp)
  | cons e' rest ih =>
    intro visited st pre post e hfil hpre hclaim
    rw [List.filter_cons] at hfil
    by_cases hin : e'.1 ∈ visited
    · rw [if_neg (by simpa using hin)] at hfil
      unfold singularPredictRound
      rw [if_pos hin]
      exact ih visited st pre post e hfil hpre hclaim
    · rw [if_pos (by simpa using hin)] at hfil
      cases pre with
      | nil =>
        simp only [List.nil_append, List.cons.injEq] at hfil
        obtain ⟨rfl, _⟩ := hfil
        have hne : m st.cnt ≠ -1 := by
          have := hclaim
          simp only [List.length_nil, Nat.add_zero] at this
          omega
        unfold singularPredictRound judgeMeasure
        rw [if_neg hin, if_neg hne]
        dsimp only
        rw [if_pos (by simpa using hclaim)]
        simp
      | cons p pre2 =>
        simp only [List.cons_append, List.cons.injEq] at hfil
        obtain ⟨rfl, hfil2⟩ := hfil
        have h0 := hpre 0 (by simp)
        simp only [Nat.add_zero] at h0
        unfold singularPredictRound judgeMeasure
        rw [if_neg hin, if_neg h0.1]
        dsimp only
        rw [if_neg (by simpa using not_lt.mpr h0.2)]
        have hih := ih visited ⟨st.cnt + 1, st.log ++ [(i, e'.2.1.1, e'.2.1.2)]⟩
          pre2 post e hfil2
          (fun k hk => by
            have hs : st.cnt + 1 + k = st.cnt + (k + 1) := by omega
            simp only [hs]
            exact hpre (k + 1) (by simpa using Nat.succ_lt_succ hk))
          (by
            have hs : st.cnt + 1 + pre2.length = st.cnt + (e' :: pre2).length := by
              simp only [List.length_cons]
              omega
            simp only [hs]
            exact hclaim)
        rw [hih]
        simp only [Option.some.injEq, Prod.mk.injEq, MeasState.mk.injEq]
        refine ⟨trivial, ?_, ?_⟩
        · simp only [List.length_cons]
          omega
        · simp only [List.cons_append, List.map_cons, List.append_assoc,
            List.singleton_append, List.nil_append]

lemma ss2ProbeRound_scan {S : Nat} {m : Nat → Int} {i : Nat} :
    ∀ (entries : List (Nat × S2Entry)) (visited : List Nat) (st : MeasState)
      (pre post : List (Nat × S2Entry)) (e : Nat × S2Entry),
      entries.filter (fun e2 => decide (e2.1 ∉ visited)) = pre ++ e :: post →
      (∀ k, k < pre.length → m (st.cnt + 2 * k) ≠ -1 ∧ m (st.cnt + 2 * k + 1) ≠ -1 ∧
        10 * (m (st.cnt + 2 * k) + m (st.cnt + 2 * k + 1)) ≤ 53 * (S : Int)) →
      m (st.cnt + 2 * pre.length) ≠ -1 →
      m (st.cnt + 2 * pre.length + 1) ≠ -1 →
      10 * (m (st.cnt + 2 * pre.length) + m (st.cnt + 2 * pre.length + 1)) >
        53 * (S : Int) →
      ss2ProbeRound S m i entries visited st =
        some (some e.1, ⟨st.cnt + 2 * pre.length + 2,
          st.log ++ (pre ++ [e]).flatMap (fun e2 =>
            [(i, e2.2.1.1, e2.2.1.2), (i, e2.2.2.1, e2.2.2.2)])⟩) := by
  intro entries
  induction entries with
  | nil =>
    intro visited st pre post e hfil hpre hne1 hne2 hclaim
    rw [List.filter_nil] at hfil
    exact absurd hfil (by simp)
  | cons e' rest ih =>
    intro visited st pre post e hfil hpre hne1 hne2 hclaim
    rw [List.filter_cons] at hfil
    by_cases hin : e'.1 ∈ visited
    · rw [if_neg (by simpa using hin)] at hfil
      unfold ss2ProbeRound
      rw [if_pos hin]
      exact ih visited st pre post e hfil hpre hne1 hne2 hclaim
    · rw [if_pos (by simpa using hin)] at hfil
      cases pre with
      | nil =>
        simp only [List.nil_append, List.cons.injEq] at hfil
        obtain ⟨rfl, _⟩ := hfil
        simp only [List.length_nil, Nat.mul_zero, Nat.add_zero] at hne1 hne2 hclaim
        unfold ss2ProbeRound judgeMeasure
        rw [if_neg hin, if_neg hne1]
        dsimp only
        rw [if_neg (by simpa using hne2)]
        dsimp only
        rw [if_pos (by simpa using hclaim)]
        simp
      | cons p pre2 =>
        simp only [List.cons_append, List.cons.injEq] at hfil
        obtain ⟨rfl, hfil2⟩ := hfil
        have h0 := hpre 0 (by simp)
        simp only [Nat.mul_zero, Nat.add_zero] at h0
        unfold ss2ProbeRound judgeMeasure
        rw [if_neg hin, if_neg h0.1]
        dsimp only
        rw [if_neg (by simpa using h0.2.1)]
        dsimp only
        rw [if_neg (by simpa using not_lt.mpr h0.2.2)]
        have hih := ih visited
          ⟨st.cnt + 1 + 1, (st.log ++ [(i, e'.2.1.1, e'.2.1.2)]) ++ [(i, e'.2.2.1, e'.2.2.2)]⟩
          pre2 post e hfil2
          (fun k hk => by
            have hs1 : st.cnt + 1 + 1 + 2 * k = st.cnt + 2 * (k + 1) := by omega
            simp only [hs1]
            exact hpre (k + 1) (by simpa using Nat.succ_lt_succ hk))
          (by
            have hs : st.cnt + 1 + 1 + 2 * pre2.length = st.cnt + 2 * (e' :: pre2).length := by
              simp only [List.length_cons]
              omega
            simp only [hs]
            exact hne1)
          (by
            have hs : st.cnt + 1 + 1 + 2 * pre2.length = st.cnt + 2 * (e' :: pre2).length := by
              simp only [List.length_cons]
              omega
            simp only [hs]
            exact hne2)
          (by
            have hs : st.cnt + 1 + 1 + 2 * pre2.length = st.cnt + 2 * (e' :: pre2).length := by
              simp only [List.length_cons]
              omega
            simp only [hs]
            exact hclaim)
        rw [hih]
        simp only [Option.some.injEq, Prod.mk.injEq, MeasState.mk.injEq]
        refine ⟨trivial, ?_, ?_⟩
        · simp only [List.length_cons]
          omega
        · simp only [List.cons_append, List.flatMap_cons, List.append_assoc,
            List.singleton_append, List.cons_append, List.nil_append]


/-- Claim C4, amended: the one-hotspot Variant B decoder probes the
not-yet-claimed candidates in ascending order of their stored Manhattan
distance to the hotspot (its distance list is sorted by that key, which equals
the Manhattan norm of the stored offset) and irrevocably claims the first
whose reading exceeds the threshold; the two-hotspot Variant C threshold
decoder scans its candidates in enumeration (candidate-index) order instead,
claiming the first whose summed paired reading exceeds its threshold.  The
scan conjuncts characterise one decoding round exactly: given the
decomposition of the unclaimed candidates into the failing prefix, the claimed
candidate, and the unscanned suffix, the round consumes exactly the prefix's
readings plus the claiming one, logs those queries in scan order, and claims
the first exceeding candidate. -/
theorem claim_c4_probe_order :
    (∀ (L N S : Nat) (landing_pos : List Pos),
      List.Sorted distLe (singularTemperatureRun L N S landing_pos).2) ∧
      (∀ (L N S : Nat) (landing_pos : List Pos),
        ∀ e ∈ (singularTemperatureRun L N S landing_pos).2,
          e.2.2 = e.2.1.1.natAbs + e.2.1.2.natAbs) ∧
      (∀ (S : Nat) (m : Nat → Int) (i : Nat) (dist : List SEntry)
        (visited : List Nat) (st : MeasState) (pre post : List SEntry) (e : SEntry),
        dist.filter (fun e2 => decide (e2.1 ∉ visited)) = pre ++ e :: post →
        (∀ k, k < pre.length → m (st.cnt + k) ≠ -1 ∧
          m (st.cnt + k) ≤ min 999 (5 * (S : Int))) →
        m (st.cnt + pre.length) > min 999 (5 * (S : Int)) →
        singularPredictRound S m i dist visited st =
          some (some e.1, ⟨st.cnt + pre.length + 1,
            st.log ++ (pre ++ [e]).map (fun e2 => (i, e2.2.1.1, e2.2.1.2))⟩)) ∧
      (∀ (S : Nat) (m : Nat → Int) (i : Nat) (entries : List (Nat × S2Entry))
        (visited : List Nat) (st : MeasState) (pre post : List (Nat × S2Entry))
        (e : Nat × S2Entry),
        entries.filter (fun e2 => decide (e2.1 ∉ visited)) = pre ++ e :: post →
        (∀ k, k < pre.length → m (st.cnt + 2 * k) ≠ -1 ∧ m (st.cnt + 2 * k + 1) ≠ -1 ∧
          10 * (m (st.cnt + 2 * k) + m (st.cnt + 2 * k + 1)) ≤ 53 * (S : Int)) →
        m (st.cnt + 2 * pre.length) ≠ -1 →
        m (st.cnt + 2 * pre.length + 1) ≠ -1 →
        10 * (m (st.cnt + 2 * pre.length) + m (st.cnt + 2 * pre.length + 1)) >
          53 * (S : Int) →
        ss2ProbeRound S m i entries visited st =
          some (some e.1, ⟨st.cnt + 2 * pre.length + 2,
            st.log ++ (pre ++ [e]).flatMap (fun e2 =>
              [(i, e2.2.1.1, e2.2.1.2), (i, e2.2.2.1, e2.2.2.2)])⟩)) := by
  refine ⟨?_, ?_, fun S m i => @singularPredictRound_scan S m i,
    fun S m i => @ss2ProbeRound_scan S m i⟩
  · intro L N S landing_pos
    unfold singularTemperatureRun
    exact List.sorted_insertionSort distLe _
  · intro L N S landing_pos e he
    unfold singularTemperatureRun at he
    have hmem : e ∈ (landing_pos.enum.map (fun ip =>
        (ip.1, (((landing_pos.map Pos.y).sum / N : Nat) - (ip.2.y : Int),
          ((landing_pos.map Pos.x).sum / N : Nat) - (ip.2.x : Int)),
          (((landing_pos.map Pos.y).sum / N : Nat) - (ip.2.y : Int)).natAbs +
            (((landing_pos.map Pos.x).sum / N : Nat) - (ip.2.x : Int)).natAbs))) :=
      (List.perm_insertionSort distLe _).mem_iff.mp he
    obtain ⟨ip, _, hip⟩ := List.mem_map.mp hmem
    rw [← hip]

/-- Concrete instances of the amended claim C4: the Variant B distance list of
a small episode is sorted; a Variant B round with an immediately exceeding
reading claims the first candidate after one query; a Variant C round does the
same with one query pair. -/
theorem claim_c4_witness :
    List.Sorted distLe (singularTemperatureRun 4 2 10 [⟨0, 0⟩, ⟨0, 1⟩]).2 ∧
      singularPredictRound 10 (fun _ => 100) 0 [(0, (1, 1), 2)] [] ⟨0, []⟩ =
        some (some 0, ⟨1, [(0, 1, 1)]⟩) ∧
      ss2ProbeRound 169 (fun _ => 10000) 0 [(0, ((1, 1), (2, 1)))] [] ⟨0, []⟩ =
        some (some 0, ⟨2, [(0, 1, 1), (0, 2, 1)]⟩) :=
  ⟨claim_c4_probe_order.1 4 2 10 [⟨0, 0⟩, ⟨0, 1⟩],
    claim_c4_probe_order.2.2.1 10 (fun _ => 100) 0 [(0, (1, 1), 2)] [] ⟨0, []⟩
      [] [] (0, (1, 1), 2) (by decide)
      (fun k hk => absurd hk (Nat.not_lt_zero k)) (by decide),
    claim_c4_probe_order.2.2.2 169 (fun _ => 10000) 0 [(0, ((1, 1), (2, 1)))] []
      ⟨0, []⟩ [] [] (0, ((1, 1), (2, 1))) (by decide)
      (fun k hk => absurd hk (Nat.not_lt_zero k)) (by decide) (by decide) (by decide)⟩

